import Mathlib

/-!
Verification of the WordCraft server game engine and multiplayer room
coordinator (shallow embedding).

Sources embedded here:
* `src/unnamed/part_004` — the authoritative multiplayer coordinator
  (`game-rooms.ts`, wired to the HTTP server by `src/server/routes.ts`):
  premium map, tile distribution, word list, `validatePlacement`,
  `getFormedWords`, `calculateScore`, and the `place_tiles` / `pass_turn` /
  `exchange_tiles` message handlers.
* `src/lib/scrabble-engine.ts` — the single-player engine.  Its
  `validatePlacement`, `getFormedWords` and `calculateMoveScore` are
  line-for-line identical to the server's versions (only two error message
  strings differ in wording), and its `COMMON_WORDS` set holds exactly the
  same 715 words, so the definitions below serve both files.
* `src/lib/game-context.tsx` — the single-player state machine; its
  `submitMove` is embedded for the endgame-settlement claim.

Modelling conventions:
* JS numbers used as board coordinates and scores are `Int`; counts are
  `Nat`.  Tile ids are opaque unique strings in the source (`genTileId`);
  they are only ever compared for equality, so they are modelled as `Nat`.
* A board is a total function `Int → Int → BoardCell`.  The source stores a
  15×15 array and always bounds-checks before indexing on the paths
  verified here; out-of-range cells of the model are empty.
* `Math.random`-driven shuffles (Fisher–Yates) are modelled by quantifying
  over permutations of the unshuffled bag; a shuffle can produce any
  permutation and correctness claims never depend on the order produced.
-/

/-- Tile, from `interface Tile` (id, letter, value, isBlank).  The id is an
opaque unique token in the source, modelled as `Nat`. -/
structure Tile where
  id : Nat
  letter : String
  value : Int
  isBlank : Bool
deriving DecidableEq

/-- PlacedTile, from `interface PlacedTile extends Tile` (adds row, col). -/
structure PlacedTile extends Tile where
  row : Int
  col : Int
deriving DecidableEq

/-- Premium kinds, from `type PremiumType = "none" | "DL" | "TL" | "DW" |
"TW" | "CENTER"`. -/
inductive PremiumType where
  | none
  | DL
  | TL
  | DW
  | TW
  | CENTER
deriving DecidableEq

/-- BoardCell, from `interface BoardCell` (tile, premium). -/
structure BoardCell where
  tile : Option Tile
  premium : PremiumType
deriving DecidableEq

/-- A board maps coordinates to cells (the source uses a 15×15 array,
always bounds-checked before access on the verified paths). -/
def Board : Type := Int → Int → BoardCell

/-- The `TW` coordinate list of `initPremiumMap`. -/
def TW_CELLS : List (Int × Int) :=
  [(0,0),(0,7),(0,14),(7,0),(7,14),(14,0),(14,7),(14,14)]

/-- The `DW` coordinate list of `initPremiumMap`. -/
def DW_CELLS : List (Int × Int) :=
  [(1,1),(2,2),(3,3),(4,4),(10,10),(11,11),(12,12),(13,13),
   (1,13),(2,12),(3,11),(4,10),(10,4),(11,3),(12,2),(13,1)]

/-- The `TL` coordinate list of `initPremiumMap`. -/
def TL_CELLS : List (Int × Int) :=
  [(1,5),(1,9),(5,1),(5,5),(5,9),(5,13),
   (9,1),(9,5),(9,9),(9,13),(13,5),(13,9)]

/-- The `DL` coordinate list of `initPremiumMap`. -/
def DL_CELLS : List (Int × Int) :=
  [(0,3),(0,11),(2,6),(2,8),(3,0),(3,7),(3,14),
   (6,2),(6,6),(6,8),(6,12),(7,3),(7,11),
   (8,2),(8,6),(8,8),(8,12),(11,0),(11,7),(11,14),
   (12,6),(12,8),(14,3),(14,11)]

/-- The premium lookup built by `initPremiumMap`: assignments are applied
in the order TW, DW, TL, DL, then center, later writes overwriting earlier
ones, so the lookup tests in the reverse order.  (In fact the lists are
disjoint, so the order is immaterial.)  This is the server's `PREMIUM_MAP`
lookup and the engine's `getPremiumType`. -/
def getPremiumType (r c : Int) : PremiumType :=
  if (r, c) = (7, 7) then .CENTER
  else if (r, c) ∈ DL_CELLS then .DL
  else if (r, c) ∈ TL_CELLS then .TL
  else if (r, c) ∈ DW_CELLS then .DW
  else if (r, c) ∈ TW_CELLS then .TW
  else .none

/-- `createEmptyBoard`: every cell empty, premium from the lookup (cells
outside 0..14 never arise in the source; they are empty, no premium). -/
def createEmptyBoard : Board := fun r c =>
  if 0 ≤ r ∧ r ≤ 14 ∧ 0 ≤ c ∧ c ≤ 14 then
    { tile := Option.none, premium := getPremiumType r c }
  else
    { tile := Option.none, premium := .none }

/-- `TILE_DISTRIBUTION`: (letter, count, value) for A–Z and the blank
("?"). -/
def TILE_DISTRIBUTION : List (String × Nat × Int) :=
  [("A",9,1),("B",2,3),("C",2,3),("D",4,2),("E",12,1),("F",2,4),
   ("G",3,2),("H",2,4),("I",9,1),("J",1,8),("K",1,5),("L",4,1),
   ("M",2,3),("N",6,1),("O",8,1),("P",2,3),("Q",1,10),("R",6,1),
   ("S",4,1),("T",6,1),("U",4,1),("V",2,4),("W",2,4),("X",1,8),
   ("Y",2,4),("Z",1,10),("?",2,0)]

/-- Expansion step of `createTileBag`: emit `count` copies per distribution
entry; ids are consecutive naturals standing in for the unique strings
produced by `genTileId`. -/
def expandDistribution : List (String × Nat × Int) → Nat → List Tile
  | [], _ => []
  | (letter, count, value) :: rest, n =>
    ((List.range count).map fun i =>
      { id := n + i
        letter := if letter = "?" then "" else letter
        value := value
        isBlank := letter = "?" }) ++ expandDistribution rest (n + count)

/-- `createTileBag` before its final Fisher–Yates shuffle; the shuffle is
modelled by quantifying over `List.Perm` of this list. -/
def createTileBag : List Tile := expandDistribution TILE_DISTRIBUTION 0

/-- `drawTiles(bag, count)`: take up to `count` tiles from the front
(`slice(0, min(count, len))` / `slice(drawn.length)`). -/
def drawTiles (bag : List Tile) (count : Nat) : List Tile × List Tile :=
  (bag.take count, bag.drop count)

/-- `placedTiles.every(t => t.row === placedTiles[0].row)`. -/
def allSameRow : List PlacedTile → Bool
  | [] => true
  | t0 :: rest => (t0 :: rest).all fun t => t.row == t0.row

/-- `placedTiles.every(t => t.col === placedTiles[0].col)`. -/
def allSameCol : List PlacedTile → Bool
  | [] => true
  | t0 :: rest => (t0 :: rest).all fun t => t.col == t0.col

/-- The per-tile bounds/occupancy loop of `validatePlacement`: first
failure wins. -/
def checkCells (b : Board) : List PlacedTile → Option String
  | [] => Option.none
  | t :: rest =>
    if t.row < 0 ∨ t.row > 14 ∨ t.col < 0 ∨ t.col > 14 then
      some "Tile out of bounds"
    else if (b t.row t.col).tile.isSome then
      some "Cell already occupied"
    else checkCells b rest

/-- The adjacency test of `validatePlacement`'s connection rule. -/
def touchesExisting (b : Board) (p : List PlacedTile) : Bool :=
  p.any fun t =>
    [(t.row - 1, t.col), (t.row + 1, t.col),
     (t.row, t.col - 1), (t.row, t.col + 1)].any fun rc =>
      0 ≤ rc.1 && rc.1 < 15 && 0 ≤ rc.2 && rc.2 < 15 &&
        (b rc.1 rc.2).tile.isSome

/-- Minimum of the placed columns (the source sorts the column list
ascending and reads its first entry). -/
def minColOf : List PlacedTile → Int
  | [] => 0
  | t :: rest => rest.foldl (fun m u => min m u.col) t.col

/-- Maximum of the placed columns (the sorted list's last entry). -/
def maxColOf : List PlacedTile → Int
  | [] => 0
  | t :: rest => rest.foldl (fun m u => max m u.col) t.col

/-- Minimum of the placed rows. -/
def minRowOf : List PlacedTile → Int
  | [] => 0
  | t :: rest => rest.foldl (fun m u => min m u.row) t.row

/-- Maximum of the placed rows. -/
def maxRowOf : List PlacedTile → Int
  | [] => 0
  | t :: rest => rest.foldl (fun m u => max m u.row) t.row

/-- The horizontal gap scan: some column in the min..max span holds
neither a newly placed tile nor an existing board tile. -/
def rowGapScan (b : Board) (p : List PlacedTile) (row : Int) : Bool :=
  (List.range ((maxColOf p - minColOf p).toNat + 1)).any fun i =>
    let c := minColOf p + i
    !(p.any fun t => t.col == c) && (b row c).tile.isNone

/-- The vertical gap scan. -/
def colGapScan (b : Board) (p : List PlacedTile) (col : Int) : Bool :=
  (List.range ((maxRowOf p - minRowOf p).toNat + 1)).any fun i =>
    let r := minRowOf p + i
    !(p.any fun t => t.row == r) && (b r col).tile.isNone

/-- Result of `validatePlacement` ({valid: boolean, error?: string}). -/
inductive VResult where
  | valid
  | invalid (error : String)
deriving DecidableEq

/-- `validatePlacement(board, placedTiles, isFirstMove)`, rules checked in
source order with first failure winning.  Error strings are the server's
(`part_004`); the engine's only differ in wording ("First word must cover
the center square", "Gaps in word placement"). -/
def validatePlacement (b : Board) (p : List PlacedTile)
    (isFirstMove : Bool) : VResult :=
  match p with
  | [] => .invalid "No tiles placed"
  | t0 :: _ =>
    if !allSameRow p && !allSameCol p then
      .invalid "Tiles must be in a single row or column"
    else match checkCells b p with
    | some e => .invalid e
    | Option.none =>
      if isFirstMove && !(p.any fun t => t.row == 7 && t.col == 7) then
        .invalid "First word must cover center"
      else if isFirstMove && p.length < 2 then
        .invalid "First word must be at least 2 letters"
      else if !isFirstMove && !touchesExisting b p then
        .invalid "Word must connect to existing tiles"
      else if allSameRow p then
        if rowGapScan b p t0.row then .invalid "Gaps in placement"
        else .valid
      else
        if colGapScan b p t0.col then .invalid "Gaps in placement"
        else .valid

/-- `COMMON_WORDS`: the fixed lexicon.  The server set (`part_004`) and the
engine set (`scrabble-engine.ts`) contain exactly the same 715 words (the
engine list writes "WRAP" twice; a JS `Set` deduplicates), so this single
list serves both. -/
def COMMON_WORDS : List String :=
  ["AA","AB","AD","AE","AG","AH","AI","AL","AM","AN","AR","AS","AT","AW",
   "AX","AY","BA","BE","BI","BO","BY","DA","DE","DO","ED","EF","EH","EL",
   "EM","EN","ER","ES","ET","EW","EX","FA","FE","GI","GO","HA","HE","HI",
   "HM","HO","ID","IF","IN","IS","IT","JO","KA","KI","LA","LI","LO","MA",
   "ME","MI","MM","MO","MU","MY","NA","NE","NO","NU","OD","OE","OF","OH",
   "OI","OK","OM","ON","OP","OR","OS","OW","OX","OY","PA","PE","PI","PO",
   "QI","RE","SH","SI","SO","TA","TI","TO","UH","UM","UN","UP","US","UT",
   "WE","WO","XI","XU","YA","YE","ZA","THE","AND","FOR","ARE","BUT","NOT",
   "YOU","ALL","CAN","HER","WAS","ONE","OUR","OUT","DAY","HAD","HAS","HIS",
   "HOW","MAN","NEW","NOW","OLD","SEE","WAY","WHO","BOY","DID","GET","HIM",
   "HIT","HOT","LET","MAY","RUN","SAY","SHE","TOO","USE","DAD","MOM","SET",
   "TEN","TOP","RED","BIG","BAD","END","FAR","PUT","RAN","SIT","TRY","ASK",
   "CAR","EAT","FUN","GOD","HAT","JAR","KEY","LAP","MAP","NET","OWL","PEN",
   "RAG","SAT","TAP","VAN","WAR","YAM","ZAP","ACE","AGE","AID","AIM","AIR",
   "ALE","ANT","APE","ARC","ARK","ARM","ART","ATE","AWE","AXE","BAG","BAN",
   "BAR","BAT","BED","BET","BIT","BOW","BOX","BUD","BUG","BUS","BUY","CAB",
   "CAP","CAT","COP","COT","COW","CRY","CUB","CUP","CUT","DAM","DEN","DEW",
   "DIG","DIM","DIP","DOC","DOG","DOT","DRY","DUB","DUG","DUN","DUO","EAR",
   "EEL","EGG","ELF","ELK","ELM","EMU","ERA","EVE","EWE","EYE","FAN","FAT",
   "FAX","FED","FEW","FIG","FIN","FIT","FIX","FLY","FOB","FOE","FOG","FOP",
   "FOX","FRY","FUR","GAB","GAG","GAP","GAS","GEL","GEM","GNU","GOB","GOT",
   "GUM","GUN","GUT","GUY","GYM","ABLE","ALSO","AREA","ARMY","AWAY","BACK",
   "BALL","BAND","BANK","BASE","BATH","BEAN","BEAR","BEAT","BEEN","BEER",
   "BELL","BELT","BEND","BEST","BILL","BIRD","BITE","BLOW","BLUE","BOAT",
   "BODY","BOLD","BOMB","BOND","BONE","BOOK","BOOT","BORE","BORN","BOSS",
   "BOTH","BOWL","BULK","BURN","BUSY","CAKE","CALL","CALM","CAME","CAMP",
   "CARD","CARE","CART","CASE","CASH","CAST","CAVE","CHIP","CITY","CLAD",
   "CLAY","CLIP","CLUB","CLUE","COAL","COAT","CODE","COIN","COLD","COLE",
   "COME","COOK","COOL","COPE","COPY","CORD","CORE","CORN","COST","CREW",
   "CROP","CROW","CURE","CURL","CUTE","DALE","DAME","DAMN","DARE","DARK",
   "DASH","DATA","DATE","DAWN","DEAD","DEAF","DEAL","DEAN","DEAR","DEBT",
   "DECK","DEED","DEEM","DEEP","DEER","DENY","DESK","DIAL","DICE","DIET",
   "DIRE","DIRT","DISH","DISK","DOCK","DOES","DONE","DOOM","DOOR","DOSE",
   "DOWN","DRAG","DRAW","DREW","DROP","DRUM","DUAL","DUEL","DUKE","DULL",
   "DUMB","DUMP","DUNE","DUST","DUTY","EACH","EARL","EARN","EASE","EAST",
   "EASY","EDGE","EDIT","ELSE","EVEN","EVER","EVIL","EXAM","EXEC","FACE",
   "FACT","FADE","FAIL","FAIR","FAKE","FALL","FAME","FANG","FARE","FARM",
   "FAST","FATE","FEAR","FEAT","FEED","FEEL","FEET","FELL","FELT","FILE",
   "FILL","FILM","FIND","FINE","FIRE","FIRM","FISH","FIST","FLAG","FLAT",
   "FLED","FLEW","FLIP","FLOW","FOAM","FOLD","FOLK","FOND","FONT","FOOD",
   "FOOL","FOOT","FORD","FORE","FORK","FORM","FORT","FOUL","FOUR","FREE",
   "FROM","FUEL","FULL","FUND","FURY","FUSE","GAIN","GALE","GAME","GANG",
   "GAPE","GATE","GAVE","GAZE","GEAR","GENE","GIFT","GIRL","GIVE","GLAD",
   "GLEN","GLOW","GLUE","GOAT","GOES","GOLD","GOLF","GONE","GOOD","GRAB",
   "GRAY","GREW","GRID","GRIM","GRIN","GRIP","GROW","GULF","GURU","GUST",
   "QUIZ","QUAG","QUAD","QOPH","JAZZ","BUZZ","FIZZ","FUZZ","RAZZ","TIZZ",
   "ZEAL","ZERO","ZINC","ZONE","ZOOM","JINX","JIVE","JOKE","JUMP","JURY",
   "JUST","TAXI","TEXT","NEXT","EXIT","APEX","OXEN","KNOB","KNEE","KNEW",
   "KNIT","KNOT","KNOW","WREN","WRAP","WRIT","WAKE","WAGE","WADE","WAIT",
   "WALK","WALL","WANT","WARD","WARM","WARN","WARP","WASH","WAVE","WEAK",
   "WEAR","WEED","WEEK","WELL","WENT","WERE","WEST","WHAT","WHEN","WHOM",
   "WIDE","WIFE","WILD","WILL","WIND","WINE","WING","WIRE","WISE","WISH",
   "WITH","WOKE","WOLF","WOMB","WOOD","WOOL","WORD","WORE","WORK","WORM",
   "WORN","WORLD","WOULD","WRITE","WRONG","ABOUT","ABOVE","AFTER","AGAIN",
   "BEING","BELOW","BLACK","BOARD","BRAIN","BREAD","BREAK","BRING","BROAD",
   "BROWN","BUILD","CARRY","CATCH","CAUSE","CHAIN","CHAIR","CHEAP","CHECK",
   "CHIEF","CHILD","CHINA","CLAIM","CLASS","CLEAN","CLEAR","CLIMB","CLOCK",
   "CLOSE","CLOUD","COACH","COAST","COLOR","COMES","COULD","COUNT","COURT",
   "COVER","CRAFT","CRASH","CRAZY","CREAM","CRIME","CROSS","CROWD","CROWN",
   "CURVE","CYCLE","DANCE","DEATH","DEPTH","DOUBT","DRAFT","DRAIN","DRAMA",
   "DRAWN","DREAM","DRESS","DRIED","DRINK","DRIVE","DROVE","DYING","EAGER",
   "EARLY","EARTH","EIGHT","ELECT","ELITE","EMPTY","ENEMY","ENJOY","ENTER",
   "ENTRY","EQUAL","ERROR","EVENT","EVERY","EXACT","EXTRA","FAITH","FALSE",
   "FAULT","FEAST","FENCE","FEWER","FIBER","FIELD","FIFTH","FIFTY","FIGHT",
   "FINAL","FINDS","FIRST","FIXED","FLAME","FLASH","FLEET","FLESH","FLIES",
   "FLOAT","FLOOD","FLOOR","FLOUR","FLUID","FLUSH","FOCUS","FORCE","FORTH",
   "FOUND","FRAME","FRANK","FRAUD","FRESH","FRONT","FROST","FRUIT","FULLY",
   "FUNNY"]

/-- ASCII upper-casing of one character — the only case `toUpperCase`
meets here, since words are built from tile letters and "?". -/
def upperChar (c : Char) : Char :=
  if 'a' ≤ c ∧ c ≤ 'z' then Char.ofNat (c.toNat - 32) else c

/-- ASCII upper-casing (JS `toUpperCase`), written out directly over the
character list so that it evaluates inside the kernel. -/
def toUpperAscii (s : String) : String := ⟨s.data.map upperChar⟩

/-- `isValidWord(word)`: membership of the upper-cased word. -/
def isValidWord (word : String) : Bool :=
  COMMON_WORDS.contains (toUpperAscii word)

/-- Cell occupancy test. -/
def occAt (b : Board) (r c : Int) : Bool := (b r c).tile.isSome

/-- One board-cell assignment `board[t.row][t.col] = {...cell, tile: t}`
(the stored tile keeps id/letter/value/isBlank; coordinates live in the
cell index). -/
def setTileAt (b : Board) (t : PlacedTile) : Board := fun r c =>
  if r == t.row && c == t.col then { b r c with tile := some t.toTile }
  else b r c

/-- The scratch board of `getFormedWords`: the board with the candidate
tiles applied in list order (later writes win). -/
def tempBoardOf (b : Board) (p : List PlacedTile) : Board :=
  p.foldl setTileAt b

/-- Membership in `placedSet` (the set of placed coordinates). -/
def isNewCell (p : List PlacedTile) (r c : Int) : Bool :=
  p.any fun t => t.row == r && t.col == c

/-- One letter entry of a formed word ({row, col, letter, value, isNew}). -/
structure WordTile where
  row : Int
  col : Int
  letter : String
  value : Int
  isNew : Bool
deriving DecidableEq

/-- A formed word ({word, tiles}). -/
structure FormedWord where
  word : String
  tiles : List WordTile
deriving DecidableEq

/-- The backward walk of `getWordAt`: step toward coordinate 0 while the
previous cell on the axis is occupied.  Board coordinates lie in 0..14 on
every verified path, so fuel 15 never runs out. -/
def walkBack (occ : Int → Bool) : Nat → Int → Int
  | 0, x => x
  | fuel + 1, x => if x > 0 && occ (x - 1) then walkBack occ fuel (x - 1) else x

/-- The forward collection loop of `getWordAt`: gather occupied cells while
the axis coordinate is below 15, recording letter (blank shown as "?"),
value, and whether the cell was placed this move. -/
def collectRun (tb : Board) (p : List PlacedTile) (fixed : Int)
    (horizontal : Bool) : Nat → Int → List WordTile
  | 0, _ => []
  | fuel + 1, x =>
    if x < 15 then
      let r := if horizontal then fixed else x
      let c := if horizontal then x else fixed
      match (tb r c).tile with
      | some t =>
        { row := r, col := c
          letter := if t.letter = "" then "?" else t.letter
          value := t.value
          isNew := isNewCell p r c } :: collectRun tb p fixed horizontal fuel (x + 1)
      | Option.none => []
    else []

/-- `getWordAt(startRow, startCol, horizontal)`: walk back to the start of
the maximal run, collect it, and keep it only when the word string has at
least two characters. -/
def wordAt (tb : Board) (p : List PlacedTile) (startRow startCol : Int)
    (horizontal : Bool) : Option FormedWord :=
  let occ : Int → Bool := fun x =>
    if horizontal then occAt tb startRow x else occAt tb x startCol
  let s := walkBack occ 15 (if horizontal then startCol else startRow)
  let tiles := collectRun tb p (if horizontal then startRow else startCol)
    horizontal 15 s
  let w := tiles.foldl (fun acc e => acc ++ e.letter) ""
  if 2 ≤ w.length then some { word := w, tiles := tiles } else Option.none

/-- The deduplication key: start and end coordinates of the word (the
source's `"r,c-r,c"` string, which parses uniquely back to the tuple). -/
def wordKey (w : FormedWord) : Int × Int × Int × Int :=
  match w.tiles with
  | [] => (0, 0, 0, 0)
  | e :: rest =>
    let last := (rest.getLast?).getD e
    (e.row, e.col, last.row, last.col)

/-- First-wins deduplication over `wordKey` (the source's insertion-order
`Map`). -/
def dedupByKey : List FormedWord → List (Int × Int × Int × Int) → List FormedWord
  | [], _ => []
  | w :: rest, seen =>
    if wordKey w ∈ seen then dedupByKey rest seen
    else w :: dedupByKey rest (wordKey w :: seen)

/-- `getFormedWords(board, placedTiles)`.  On `[]` the source would fault
reading `placedTiles[0]`; every caller guards against it and the model
returns `[]`. -/
def getFormedWords (b : Board) (p : List PlacedTile) : List FormedWord :=
  match p with
  | [] => []
  | t0 :: _ =>
    let tb := tempBoardOf b p
    let sameRow := allSameRow p
    let one := p.length == 1
    let headWords :=
      (if sameRow || one then (wordAt tb p t0.row t0.col true).toList else []) ++
      (if !sameRow || one then (wordAt tb p t0.row t0.col false).toList else [])
    let crossWords := (p.map fun t =>
      (if sameRow || one then (wordAt tb p t.row t.col false).toList else []) ++
      (if !sameRow || one then (wordAt tb p t.row t.col true).toList else [])).flatten
    dedupByKey (headWords ++ crossWords) []

/-- Per-word scoring loop of `calculateScore`: letter multipliers on newly
placed DL/TL letters, word multipliers accumulated from newly placed
DW/CENTER/TW letters; the pair is (letter sum, word multiplier). -/
def scoreWord (b : Board) (w : FormedWord) : Int :=
  let acc := w.tiles.foldl (fun (a : Int × Int) t =>
    if t.isNew then
      match (b t.row t.col).premium with
      | .DL => (a.1 + t.value * 2, a.2)
      | .TL => (a.1 + t.value * 3, a.2)
      | .DW => (a.1 + t.value, a.2 * 2)
      | .CENTER => (a.1 + t.value, a.2 * 2)
      | .TW => (a.1 + t.value, a.2 * 3)
      | .none => (a.1 + t.value, a.2)
    else (a.1 + t.value, a.2)) ((0 : Int), (1 : Int))
  acc.1 * acc.2

/-- `calculateScore(board, placedTiles)` (the engine's identical function
is named `calculateMoveScore`): sum of word scores plus the 50-point bonus
for placing exactly 7 tiles. -/
def calculateScore (b : Board) (p : List PlacedTile) : Int :=
  let total := (getFormedWords b p).foldl (fun acc w => acc + scoreWord b w) 0
  if p.length == 7 then total + 50 else total

/-- One seated player of a `GameRoom` (the WebSocket handle and connected
flag are transport state, not modelled; claims quantify over seated,
connected players). -/
structure Player where
  id : Nat
  name : String
  rack : List Tile
  score : Int
deriving DecidableEq

/-- A move-history entry ({player, word, score, type}); the `type` field is
named `mtype` ("play" | "pass" | "exchange"). -/
structure MoveRecord where
  player : String
  word : String
  score : Int
  mtype : String
deriving DecidableEq

/-- A `GameRoom` with both seats occupied.  Seats are indexed by `Bool`
(`false` = `players[0]`, `true` = `players[1]`); the source's turn advance
`(i + 1) % 2` becomes negation.  The room code and `createdAt` timestamp
(identity / expiry bookkeeping) are not modelled. -/
structure GameRoom where
  board : Board
  player0 : Player
  player1 : Player
  tileBag : List Tile
  currentTurnIndex : Bool
  isFirstMove : Bool
  consecutivePasses : Nat
  gameOver : Bool
  winner : Option String
  moveHistory : List MoveRecord
  started : Bool

/-- Seat lookup. -/
def GameRoom.player (room : GameRoom) (i : Bool) : Player :=
  if i then room.player1 else room.player0

/-- Seat update. -/
def GameRoom.withPlayer (room : GameRoom) (i : Bool) (pl : Player) : GameRoom :=
  if i then { room with player1 := pl } else { room with player0 := pl }

/-- Server-to-client messages relevant to the claims.  The full
`game_state` snapshot payload (`getRoomState`) carries only derived data
and is modelled as an opaque marker naming its recipient. -/
inductive ServerMsg where
  | errorMsg (message : String)
  | moveRejected (error : String)
  | moveMade (player : String) (word : String) (score : Int)
  | gameState (forPlayer : Bool)
deriving DecidableEq

/-- Client-to-server game messages of the room coordinator. -/
inductive ClientMsg where
  | placeTiles (tiles : List PlacedTile)
  | passTurn
  | exchangeTiles (tileIds : List Nat)
deriving DecidableEq

/-- Sum of rack tile values (`rack.reduce((s, t) => s + t.value, 0)`). -/
def rackValue (rack : List Tile) : Int :=
  rack.foldl (fun s t => s + t.value) 0

/-- The winner ternary used by both endgame sites:
`s0 > s1 ? name0 : s1 > s0 ? name1 : "Tie"`. -/
def winnerByScore (s0 s1 : Int) (n0 n1 : String) : String :=
  if s0 > s1 then n0 else if s1 > s0 then n1 else "Tie"

/-- The `place_tiles` branch of `handleWebSocket`, as a pure function from
room, sender seat and message tiles to the new room plus the list of
(recipient, message) sends, in send order. -/
def handlePlaceTiles (room : GameRoom) (sender : Bool)
    (placedTiles : List PlacedTile) : GameRoom × List (Bool × ServerMsg) :=
  if !room.started || room.gameOver then (room, [])
  else if sender != room.currentTurnIndex then
    (room, [(sender, .errorMsg "Not your turn")])
  else
    let player := room.player sender
    if placedTiles.length == 0 then
      (room, [(sender, .errorMsg "No tiles placed")])
    else if placedTiles.any fun pt => !(player.rack.any fun t => t.id == pt.id) then
      (room, [(sender, .errorMsg "Invalid tile")])
    else match validatePlacement room.board placedTiles room.isFirstMove with
    | .invalid e => (room, [(sender, .moveRejected e)])
    | .valid =>
      let formedWords := getFormedWords room.board placedTiles
      match formedWords.filter fun w => !isValidWord w.word with
      | w :: _ =>
        (room, [(sender, .moveRejected ("\"" ++ w.word ++ "\" is not a valid word"))])
      | [] =>
        let score := calculateScore room.board placedTiles
        let board1 := placedTiles.foldl setTileAt room.board
        let rack1 := player.rack.filter fun t =>
          !(placedTiles.any fun pt => pt.id == t.id)
        let needed : Int := 7 - rack1.length
        let (drawn, remaining) := drawTiles room.tileBag needed.toNat
        let rack2 := rack1 ++ drawn
        let opponent := room.player (!sender)
        let mainWord := match formedWords with
          | [] => ""
          | w :: _ => w.word
        let isGameOver := remaining.length == 0 && rack2.length == 0
        let deduction := rackValue opponent.rack
        let playerScore1 := player.score + score +
          (if isGameOver then deduction else 0)
        let oppScore1 := opponent.score - (if isGameOver then deduction else 0)
        let room1 :=
          ((room.withPlayer sender
              { player with rack := rack2, score := playerScore1 }).withPlayer
            (!sender) { opponent with score := oppScore1 })
        let room2 := { room1 with
          board := board1
          tileBag := remaining
          isFirstMove := false
          consecutivePasses := 0
          moveHistory := room.moveHistory ++
            [{ player := player.name, word := mainWord, score := score,
               mtype := "play" }]
          gameOver := isGameOver
          winner := if isGameOver then
              some (winnerByScore
                (if sender then oppScore1 else playerScore1)
                (if sender then playerScore1 else oppScore1)
                room.player0.name room.player1.name)
            else room.winner
          currentTurnIndex := !room.currentTurnIndex }
        (room2,
          [(false, .moveMade player.name mainWord score),
           (true, .moveMade player.name mainWord score),
           (false, .gameState false), (true, .gameState true)])

/-- The `pass_turn` branch of `handleWebSocket`. -/
def handlePassTurn (room : GameRoom) (sender : Bool) :
    GameRoom × List (Bool × ServerMsg) :=
  if !room.started || room.gameOver then (room, [])
  else if sender != room.currentTurnIndex then (room, [])
  else
    let passes := room.consecutivePasses + 1
    let hist := room.moveHistory ++
      [{ player := (room.player sender).name, word := "", score := 0,
         mtype := "pass" }]
    let room1 :=
      if passes ≥ 4 then
        let s0 := room.player0.score - rackValue room.player0.rack
        let s1 := room.player1.score - rackValue room.player1.rack
        { room with
          player0 := { room.player0 with score := s0 }
          player1 := { room.player1 with score := s1 }
          consecutivePasses := passes
          moveHistory := hist
          gameOver := true
          winner := some (winnerByScore s0 s1 room.player0.name room.player1.name) }
      else
        { room with consecutivePasses := passes, moveHistory := hist }
    ({ room1 with currentTurnIndex := !room.currentTurnIndex },
     [(false, .gameState false), (true, .gameState true)])

/-- The `exchange_tiles` branch of `handleWebSocket`.  The in-place
Fisher–Yates re-shuffle of the bag is a random permutation; the model
keeps the pre-shuffle order `remaining ++ exchanged` (one of its possible
outcomes) — no claim depends on bag order. -/
def handleExchangeTiles (room : GameRoom) (sender : Bool)
    (tileIds : List Nat) : GameRoom × List (Bool × ServerMsg) :=
  if !room.started || room.gameOver then (room, [])
  else if room.tileBag.length < 7 then
    (room, [(sender, .errorMsg "Not enough tiles to exchange")])
  else if sender != room.currentTurnIndex then (room, [])
  else
    let player := room.player sender
    let tilesToExchange := player.rack.filter fun t => tileIds.contains t.id
    let rack1 := player.rack.filter fun t => !(tileIds.contains t.id)
    let (drawn, remaining) := drawTiles room.tileBag tilesToExchange.length
    let room1 := room.withPlayer sender
      { player with rack := rack1 ++ drawn }
    ({ room1 with
        tileBag := remaining ++ tilesToExchange
        consecutivePasses := 0
        moveHistory := room.moveHistory ++
          [{ player := player.name, word := "", score := 0,
             mtype := "exchange" }]
        currentTurnIndex := !room.currentTurnIndex },
     [(false, .gameState false), (true, .gameState true)])

/-- Dispatch of the three in-game messages (mirrors the `switch` in
`handleWebSocket`). -/
def serverStep (room : GameRoom) (sender : Bool) (msg : ClientMsg) :
    GameRoom × List (Bool × ServerMsg) :=
  match msg with
  | .placeTiles tiles => handlePlaceTiles room sender tiles
  | .passTurn => handlePassTurn room sender
  | .exchangeTiles ids => handleExchangeTiles room sender ids

/-- The game-data effect of `create_room` followed by `join_room` on a
fresh bag: each player draws 7 from the front, the room is marked started,
player 1 moves first.  Player ids (opaque tokens) are modelled as 0/1. -/
def initRoom (bag : List Tile) (n0 n1 : String) : GameRoom :=
  let (r0, bag1) := drawTiles bag 7
  let (r1, bag2) := drawTiles bag1 7
  { board := createEmptyBoard
    player0 := { id := 0, name := n0, rack := r0, score := 0 }
    player1 := { id := 1, name := n1, rack := r1, score := 0 }
    tileBag := bag2
    currentTurnIndex := false
    isFirstMove := true
    consecutivePasses := 0
    gameOver := false
    winner := Option.none
    moveHistory := []
    started := true }

/-- `calculateEndgameDeductions(rack)` from the engine: sum of rack
values. -/
def calculateEndgameDeductions (rack : List Tile) : Int := rackValue rack

/-- Whose turn it is in the single-player game. -/
inductive Turn where
  | player
  | ai
deriving DecidableEq

/-- Single-player winner values. -/
inductive SPWinner where
  | player
  | ai
  | tie
deriving DecidableEq

/-- Single-player move record (`MoveRecord` of the engine). -/
structure SPMoveRecord where
  player : Turn
  word : String
  score : Int
  tiles : List PlacedTile
  mtype : String
deriving DecidableEq

/-- The engine's `GameState`. -/
structure GameState where
  board : Board
  playerRack : List Tile
  aiRack : List Tile
  tileBag : List Tile
  playerScore : Int
  aiScore : Int
  currentTurn : Turn
  moveHistory : List SPMoveRecord
  isFirstMove : Bool
  consecutivePasses : Nat
  gameOver : Bool
  winner : Option SPWinner

/-- `submitMove` of `game-context.tsx`, as a pure function of the state and
the pending tiles.  (When tiles are pending they have already been removed
from `playerRack` by `placeTileOnBoard`, so `playerRack` here is the
leftover rack.)  Statistics persistence and scheduling of the AI turn are
side channels, not state, and are omitted.  Returns the new state and the
move score, or the rejection reason. -/
def submitMove (gs : GameState) (pendingTiles : List PlacedTile) :
    Except String (GameState × Int) :=
  if pendingTiles.length == 0 then .error "No tiles placed"
  else match validatePlacement gs.board pendingTiles gs.isFirstMove with
  | .invalid e => .error e
  | .valid =>
    match (getFormedWords gs.board pendingTiles).filter
        (fun w => !isValidWord w.word) with
    | w :: _ => .error ("\"" ++ w.word ++ "\" is not a valid word")
    | [] =>
      let score := calculateScore gs.board pendingTiles
      let formedWords := getFormedWords gs.board pendingTiles
      let mainWord := match formedWords with
        | [] => ""
        | w :: _ => w.word
      let newBoard := pendingTiles.foldl setTileAt gs.board
      let tilesNeeded : Int := 7 - gs.playerRack.length
      let (drawn, remaining) := drawTiles gs.tileBag tilesNeeded.toNat
      let isGameOver :=
        remaining.length == 0 && gs.playerRack.length + drawn.length == 0
      let aiDeduction := calculateEndgameDeductions gs.aiRack
      let finalPlayerScore := gs.playerScore + score +
        (if isGameOver then aiDeduction else 0)
      let finalAiScore := gs.aiScore - (if isGameOver then aiDeduction else 0)
      .ok ({ gs with
        board := newBoard
        playerRack := gs.playerRack ++ drawn
        tileBag := remaining
        playerScore := finalPlayerScore
        aiScore := finalAiScore
        currentTurn := .ai
        isFirstMove := false
        consecutivePasses := 0
        gameOver := isGameOver
        winner := if isGameOver then
            some (if finalPlayerScore > finalAiScore then SPWinner.player
              else if finalAiScore > finalPlayerScore then SPWinner.ai
              else SPWinner.tie)
          else Option.none
        moveHistory := gs.moveHistory ++
          [{ player := .player, word := mainWord, score := score,
             tiles := pendingTiles, mtype := "play" }] }, score)

/-- Number of occupied cells of the 15×15 board. -/
def boardTileCount (b : Board) : Nat :=
  (((Finset.Icc (0 : Int) 14) ×ˢ (Finset.Icc (0 : Int) 14)).filter
    fun rc => (b rc.1 rc.2).tile.isSome = true).card

/-- Total tiles in play in a room: bag + both racks + occupied board
cells (the quantity the spec's conservation invariant is about). -/
def totalTiles (room : GameRoom) : Nat :=
  room.tileBag.length + room.player0.rack.length +
    room.player1.rack.length + boardTileCount room.board

/-- The claim's own formulation of the gap condition (spec §4.2 rule 6):
some cell in the span from the minimum to the maximum coordinate along the
placement axis is neither newly placed nor already occupied.  Stated
independently of `validatePlacement` so the equivalence below is a real
refinement check. -/
def gapInSpan (b : Board) (p : List PlacedTile) : Prop :=
  match p with
  | [] => False
  | t0 :: _ =>
    if allSameRow p then
      ∃ c : Int, minColOf p ≤ c ∧ c ≤ maxColOf p ∧
        (∀ t ∈ p, t.col ≠ c) ∧ (b t0.row c).tile = Option.none
    else
      ∃ r : Int, minRowOf p ≤ r ∧ r ≤ maxRowOf p ∧
        (∀ t ∈ p, t.row ≠ r) ∧ (b r t0.col).tile = Option.none

/-- A fresh two-player room drawn from the unshuffled bag (the identity
permutation is one possible Fisher–Yates outcome, so this room is
reachable).  Player 1's rack is seven A-tiles (ids 0–6). -/
def roomA : GameRoom := initRoom createTileBag "Player 1" "Player 2"

/-- A `place_tiles` payload naming the same rack tile id twice at two
different cells — spelling "AA", which is in the lexicon. -/
def dupIdTiles : List PlacedTile :=
  [{ id := 0, letter := "A", value := 1, isBlank := false, row := 7, col := 7 },
   { id := 0, letter := "A", value := 1, isBlank := false, row := 7, col := 8 }]

/-- A `place_tiles` payload with rack ids 0 and 1 but forged letters and
values (the rack holds two 1-point A's; the payload claims a 10-point Z),
spelling "ZA", which is in the lexicon. -/
def forgedTiles : List PlacedTile :=
  [{ id := 0, letter := "Z", value := 10, isBlank := false, row := 7, col := 7 },
   { id := 1, letter := "A", value := 1, isBlank := false, row := 7, col := 8 }]

/-- "CAT" through the center, the spec's own worked example. -/
def catTiles : List PlacedTile :=
  [{ id := 1, letter := "C", value := 3, isBlank := false, row := 7, col := 6 },
   { id := 2, letter := "A", value := 1, isBlank := false, row := 7, col := 7 },
   { id := 3, letter := "T", value := 1, isBlank := false, row := 7, col := 8 }]

/-- `catTiles` in reverse order (a permutation of it). -/
def catTilesRev : List PlacedTile := catTiles.reverse

/-- Two tiles at the same cell (7,7): every coordinate equal, so the
placement is simultaneously "same row" and "same column". -/
def dupCoordTiles : List PlacedTile :=
  [{ id := 1, letter := "A", value := 1, isBlank := false, row := 7, col := 7 },
   { id := 2, letter := "B", value := 3, isBlank := false, row := 7, col := 7 }]

/-- A first-move placement covering center with a one-cell gap at (7,8). -/
def gapTiles : List PlacedTile :=
  [{ id := 1, letter := "A", value := 1, isBlank := false, row := 7, col := 7 },
   { id := 2, letter := "B", value := 3, isBlank := false, row := 7, col := 9 }]

/-- A gapped row-0 placement: runs "AB" at columns 0–1 and "CD" at
columns 3–4, with (0,0) a triple-word cell and (0,3) a double-letter
cell. -/
def gappedTiles : List PlacedTile :=
  [{ id := 1, letter := "A", value := 10, isBlank := false, row := 0, col := 0 },
   { id := 2, letter := "B", value := 1, isBlank := false, row := 0, col := 1 },
   { id := 3, letter := "C", value := 1, isBlank := false, row := 0, col := 3 },
   { id := 4, letter := "D", value := 1, isBlank := false, row := 0, col := 4 }]

/-- The same four tiles with the two runs swapped in list order. -/
def gappedTilesPerm : List PlacedTile :=
  [{ id := 3, letter := "C", value := 1, isBlank := false, row := 0, col := 3 },
   { id := 4, letter := "D", value := 1, isBlank := false, row := 0, col := 4 },
   { id := 1, letter := "A", value := 10, isBlank := false, row := 0, col := 0 },
   { id := 2, letter := "B", value := 1, isBlank := false, row := 0, col := 1 }]

/-- A room one play away from rack-out: the bag is empty, the mover's rack
is exactly Z and A, the opponent holds Q and X (18 points). -/
def endgameRoom : GameRoom :=
  { board := createEmptyBoard
    player0 := { id := 0, name := "P1", rack :=
      [{ id := 1, letter := "Z", value := 10, isBlank := false },
       { id := 2, letter := "A", value := 1, isBlank := false }], score := 100 }
    player1 := { id := 1, name := "P2", rack :=
      [{ id := 3, letter := "Q", value := 10, isBlank := false },
       { id := 4, letter := "X", value := 8, isBlank := false }], score := 200 }
    tileBag := []
    currentTurnIndex := false
    isFirstMove := true
    consecutivePasses := 0
    gameOver := false
    winner := Option.none
    moveHistory := []
    started := true }

/-- "ZA" through the center, the whole rack of `endgameRoom`'s mover. -/
def zaTiles : List PlacedTile :=
  [{ id := 1, letter := "Z", value := 10, isBlank := false, row := 7, col := 7 },
   { id := 2, letter := "A", value := 1, isBlank := false, row := 7, col := 8 }]

/-- The single-player analogue of `endgameRoom`: bag empty, all remaining
player tiles pending, AI holding 18 points. -/
def endgameGs : GameState :=
  { board := createEmptyBoard
    playerRack := []
    aiRack := [{ id := 3, letter := "Q", value := 10, isBlank := false },
               { id := 4, letter := "X", value := 8, isBlank := false }]
    tileBag := []
    playerScore := 50
    aiScore := 60
    currentTurn := .player
    moveHistory := []
    isFirstMove := true
    consecutivePasses := 0
    gameOver := false
    winner := Option.none }

/-- A room with three consecutive passes already recorded. -/
def passRoom : GameRoom :=
  { roomA with consecutivePasses := 3 }

/-- A board holding one prior-move tile on the (0,0) triple-word cell. -/
def priorBoard : Board :=
  setTileAt createEmptyBoard
    { id := 9, letter := "E", value := 1, isBlank := false, row := 0, col := 0 }

/-- `priorBoard` with the premium under the prior tile erased; tile
occupancy is untouched. -/
def priorBoardNoPremium : Board := fun r c =>
  if r == 0 && c == 0 then { priorBoard r c with premium := .none }
  else priorBoard r c

/-- "AB" hooked under the prior E at (0,0): placed at (1,0) and (2,0),
extending the vertical run to E-A-B. -/
def hookTiles : List PlacedTile :=
  [{ id := 5, letter := "A", value := 1, isBlank := false, row := 1, col := 0 },
   { id := 6, letter := "B", value := 3, isBlank := false, row := 2, col := 0 }]

/-- The 15×15 coordinate grid. -/
def boardGrid : Finset (Int × Int) :=
  (Finset.Icc (0 : Int) 14) ×ˢ (Finset.Icc (0 : Int) 14)

/-- The entry list of the main-axis run that `getWordAt` collects when
launched from a tile at (sr, sc): walk back to the run start, then gather
the occupied streak. Abbreviates the let-chain inside `wordAt`. -/
def mainRun (tb : Board) (p : List PlacedTile) (sr sc : Int)
    (horiz : Bool) : List WordTile :=
  collectRun tb p (if horiz then sr else sc) horiz 15
    (walkBack (fun x => if horiz then occAt tb sr x else occAt tb x sc) 15
      (if horiz then sc else sr))

/-- C3: the premium lookup assigns exactly 8 triple-word cells, 17 cells
scoring as double-word (the 16 `DW` cells plus the center — the scorer
doubles `CENTER` exactly like `DW`), 12 triple-letter cells and 24
double-letter cells; (7,7) is the center; the remaining 164 of the 225
cells carry no premium. -/
theorem c3_premium_layout :
    (boardGrid.filter fun rc => getPremiumType rc.1 rc.2 = PremiumType.TW).card = 8 ∧
    (boardGrid.filter fun rc => getPremiumType rc.1 rc.2 = PremiumType.DW ∨
      getPremiumType rc.1 rc.2 = PremiumType.CENTER).card = 17 ∧
    (boardGrid.filter fun rc => getPremiumType rc.1 rc.2 = PremiumType.TL).card = 12 ∧
    (boardGrid.filter fun rc => getPremiumType rc.1 rc.2 = PremiumType.DL).card = 24 ∧
    getPremiumType 7 7 = PremiumType.CENTER ∧
    (boardGrid.filter fun rc => getPremiumType rc.1 rc.2 = PremiumType.none).card = 164 := by
  set_option maxRecDepth 10000 in decide

set_option maxRecDepth 100000 in
/-- C1 counterexample: in the reachable fresh room `roomA` (total 100
tiles) the handled `place_tiles` message `dupIdTiles` — which names one
rack tile id at two different cells — is accepted, and afterwards
bag + racks + board hold 101 tiles: the id check passes for both copies,
the board gains two cells, but the rack loses only one tile. -/
theorem c1_counterexample :
    totalTiles roomA = 100 ∧
    totalTiles (handlePlaceTiles roomA false dupIdTiles).1 = 101 := by
  constructor
  · decide
  · decide

set_option maxRecDepth 100000 in
/-- C2 counterexample: `roomA`'s sender holds the 1-point tile A with
id 0, yet the accepted move `forgedTiles` (history grows, so it was not
rejected) commits a 10-point Z under that id: only the id is checked
against the rack; letter, value and isBlank are taken from the client. -/
theorem c2_counterexample :
    roomA.player0.rack.filter (fun t => t.id == 0) =
      [{ id := 0, letter := "A", value := 1, isBlank := false }] ∧
    (handlePlaceTiles roomA false forgedTiles).1.moveHistory.length = 1 ∧
    ((handlePlaceTiles roomA false forgedTiles).1.board 7 7).tile =
      some { id := 0, letter := "Z", value := 10, isBlank := false } := by
  refine ⟨by decide, by decide, by decide⟩

/-- C5 counterexample: `validatePlacement` accepts a two-tile placement
whose tiles occupy the same cell, and that placement is simultaneously
"all in one row" and "all in one column" — the claim's "and not both"
fails for an accepted placement of two or more tiles. -/
theorem c5_counterexample :
    validatePlacement createEmptyBoard dupCoordTiles true = VResult.valid ∧
    dupCoordTiles.length = 2 ∧
    allSameRow dupCoordTiles = true ∧
    allSameCol dupCoordTiles = true := by
  refine ⟨by decide, by decide, by decide, by decide⟩

/-- C7 counterexample: `gappedTilesPerm` is a permutation of
`gappedTiles`, yet `calculateScore` gives 33 for one order and 3 for the
other: with a gap in the placement, the "main word" is the run through
whichever tile happens to be listed first. -/
theorem c7_counterexample :
    gappedTiles.Perm gappedTilesPerm ∧
    calculateScore createEmptyBoard gappedTiles = 33 ∧
    calculateScore createEmptyBoard gappedTilesPerm = 3 := by
  refine ⟨by decide, by decide, by decide⟩

/-- "All tiles in one row" spelled out. -/
theorem allSameRow_spec (t0 : PlacedTile) (rest : List PlacedTile) :
    allSameRow (t0 :: rest) = true ↔ ∀ t ∈ t0 :: rest, t.row = t0.row := by
  simp [allSameRow, List.all_eq_true]

/-- "All tiles in one column" spelled out. -/
theorem allSameCol_spec (t0 : PlacedTile) (rest : List PlacedTile) :
    allSameCol (t0 :: rest) = true ↔ ∀ t ∈ t0 :: rest, t.col = t0.col := by
  simp [allSameCol, List.all_eq_true]

/-- C5 (amended): every placement of two or more tiles accepted by
`validatePlacement` lies in a single row or in a single column; it lies in
both simultaneously only when all its tiles occupy one single cell (the
duplicate-coordinate case the validator does not exclude). -/
theorem c5_single_line (b : Board) (p : List PlacedTile) (f : Bool)
    (h : validatePlacement b p f = VResult.valid) (h2 : 2 ≤ p.length) :
    (allSameRow p = true ∨ allSameCol p = true) ∧
    (allSameRow p = true → allSameCol p = true →
      ∀ t ∈ p, ∀ u ∈ p, t.row = u.row ∧ t.col = u.col) := by
  match p, h2 with
  | t0 :: rest, _ =>
    constructor
    · by_contra hc
      push_neg at hc
      obtain ⟨hr, hcl⟩ := hc
      replace hr := Bool.eq_false_iff.mpr hr
      replace hcl := Bool.eq_false_iff.mpr hcl
      simp only [validatePlacement, hr, hcl, Bool.not_false, Bool.and_self,
        if_true] at h
      exact absurd h (by simp)
    · intro hr hcl t ht u hu
      have hrow := (allSameRow_spec t0 rest).mp hr
      have hcol := (allSameCol_spec t0 rest).mp hcl
      exact ⟨(hrow t ht).trans (hrow u hu).symm,
        (hcol t ht).trans (hcol u hu).symm⟩

/-- Witness for `c5_single_line` at the spec's own "CAT" example. -/
theorem c5_single_line_witness :
    validatePlacement createEmptyBoard catTiles true = VResult.valid ∧
    2 ≤ catTiles.length ∧
    (allSameRow catTiles = true ∨ allSameCol catTiles = true) := by
  have h : validatePlacement createEmptyBoard catTiles true = VResult.valid := by
    decide
  exact ⟨h, by decide, (c5_single_line _ _ _ h (by decide)).1⟩

/-- A running `min` fold stays at or below its seed. -/
theorem foldl_min_le_init (f : PlacedTile → Int) :
    ∀ (l : List PlacedTile) (a : Int), l.foldl (fun m u => min m (f u)) a ≤ a
  | [], a => le_refl a
  | t :: rest, a =>
    le_trans (foldl_min_le_init f rest (min a (f t))) (min_le_left _ _)

/-- A running `min` fold is at or below every member's value. -/
theorem foldl_min_le_mem (f : PlacedTile → Int) :
    ∀ (l : List PlacedTile) (a : Int) (t : PlacedTile), t ∈ l →
      l.foldl (fun m u => min m (f u)) a ≤ f t
  | t' :: rest, a, t, h => by
    rcases List.mem_cons.mp h with h1 | h2
    · subst h1
      exact le_trans (foldl_min_le_init f rest _) (min_le_right _ _)
    · exact foldl_min_le_mem f rest _ t h2

/-- A running `max` fold stays at or above its seed. -/
theorem le_foldl_max_init (f : PlacedTile → Int) :
    ∀ (l : List PlacedTile) (a : Int), a ≤ l.foldl (fun m u => max m (f u)) a
  | [], a => le_refl a
  | t :: rest, a =>
    le_trans (le_max_left _ _) (le_foldl_max_init f rest (max a (f t)))

/-- A running `max` fold is at or above every member's value. -/
theorem mem_le_foldl_max (f : PlacedTile → Int) :
    ∀ (l : List PlacedTile) (a : Int) (t : PlacedTile), t ∈ l →
      f t ≤ l.foldl (fun m u => max m (f u)) a
  | t' :: rest, a, t, h => by
    rcases List.mem_cons.mp h with h1 | h2
    · subst h1
      exact le_trans (le_max_right _ _) (le_foldl_max_init f rest _)
    · exact mem_le_foldl_max f rest _ t h2

/-- Every placed column lies between `minColOf` and `maxColOf`. -/
theorem col_bounds (t0 : PlacedTile) (rest : List PlacedTile) :
    ∀ t ∈ t0 :: rest, minColOf (t0 :: rest) ≤ t.col ∧ t.col ≤ maxColOf (t0 :: rest) := by
  intro t ht
  rcases List.mem_cons.mp ht with h1 | h2
  · subst h1
    exact ⟨foldl_min_le_init _ rest _, le_foldl_max_init _ rest _⟩
  · exact ⟨foldl_min_le_mem _ rest _ t h2, mem_le_foldl_max _ rest _ t h2⟩

/-- Every placed row lies between `minRowOf` and `maxRowOf`. -/
theorem row_bounds (t0 : PlacedTile) (rest : List PlacedTile) :
    ∀ t ∈ t0 :: rest, minRowOf (t0 :: rest) ≤ t.row ∧ t.row ≤ maxRowOf (t0 :: rest) := by
  intro t ht
  rcases List.mem_cons.mp ht with h1 | h2
  · subst h1
    exact ⟨foldl_min_le_init _ rest _, le_foldl_max_init _ rest _⟩
  · exact ⟨foldl_min_le_mem _ rest _ t h2, mem_le_foldl_max _ rest _ t h2⟩

/-- A `for`-loop scan over `lo..hi` finds a hit exactly when some integer
in the interval satisfies the predicate. -/
theorem range_scan_iff (g : Int → Bool) (lo hi : Int) (hlh : lo ≤ hi) :
    ((List.range ((hi - lo).toNat + 1)).any fun i => g (lo + i)) = true ↔
      ∃ x : Int, lo ≤ x ∧ x ≤ hi ∧ g x = true := by
  rw [List.any_eq_true]
  constructor
  · rintro ⟨i, hmem, hgi⟩
    rw [List.mem_range] at hmem
    exact ⟨lo + i, by omega, by omega, hgi⟩
  · rintro ⟨x, h1, h2, hg⟩
    refine ⟨(x - lo).toNat, ?_, ?_⟩
    · rw [List.mem_range]; omega
    · have hx : lo + ((x - lo).toNat : Int) = x := by omega
      rw [hx]; exact hg

/-- The horizontal gap scan, spelled out over the column interval. -/
theorem rowGapScan_iff (b : Board) (t0 : PlacedTile) (rest : List PlacedTile)
    (row : Int) :
    rowGapScan b (t0 :: rest) row = true ↔
      ∃ c : Int, minColOf (t0 :: rest) ≤ c ∧ c ≤ maxColOf (t0 :: rest) ∧
        (∀ t ∈ t0 :: rest, t.col ≠ c) ∧ (b row c).tile = Option.none := by
  have hlh : minColOf (t0 :: rest) ≤ maxColOf (t0 :: rest) :=
    le_trans (col_bounds t0 rest t0 (by simp)).1 (col_bounds t0 rest t0 (by simp)).2
  have hdef : rowGapScan b (t0 :: rest) row =
      ((List.range ((maxColOf (t0 :: rest) - minColOf (t0 :: rest)).toNat + 1)).any
        fun i => (fun c => !((t0 :: rest).any fun t => t.col == c) &&
          (b row c).tile.isNone) (minColOf (t0 :: rest) + i)) := rfl
  rw [hdef]
  refine Iff.trans (range_scan_iff
    (fun c => !((t0 :: rest).any fun t => t.col == c) && (b row c).tile.isNone)
    _ _ hlh) (exists_congr fun c => ?_)
  refine and_congr_right fun _ => and_congr_right fun _ => ?_
  simp [List.any_eq_true, Option.isNone_iff_eq_none]

/-- The vertical gap scan, spelled out over the row interval. -/
theorem colGapScan_iff (b : Board) (t0 : PlacedTile) (rest : List PlacedTile)
    (col : Int) :
    colGapScan b (t0 :: rest) col = true ↔
      ∃ r : Int, minRowOf (t0 :: rest) ≤ r ∧ r ≤ maxRowOf (t0 :: rest) ∧
        (∀ t ∈ t0 :: rest, t.row ≠ r) ∧ (b r col).tile = Option.none := by
  have hlh : minRowOf (t0 :: rest) ≤ maxRowOf (t0 :: rest) :=
    le_trans (row_bounds t0 rest t0 (by simp)).1 (row_bounds t0 rest t0 (by simp)).2
  have hdef : colGapScan b (t0 :: rest) col =
      ((List.range ((maxRowOf (t0 :: rest) - minRowOf (t0 :: rest)).toNat + 1)).any
        fun i => (fun r => !((t0 :: rest).any fun t => t.row == r) &&
          (b r col).tile.isNone) (minRowOf (t0 :: rest) + i)) := rfl
  rw [hdef]
  refine Iff.trans (range_scan_iff
    (fun r => !((t0 :: rest).any fun t => t.row == r) && (b r col).tile.isNone)
    _ _ hlh) (exists_congr fun r => ?_)
  refine and_congr_right fun _ => and_congr_right fun _ => ?_
  simp [List.any_eq_true, Option.isNone_iff_eq_none]

/-- C4: for every placement that passes every rule before the gap rule
(non-empty, single line, in-bounds and unoccupied cells, first-move or
connection rule), `validatePlacement` reports the gap error exactly when
some cell in the min..max span along the placement axis is neither newly
placed nor already occupied, and reports the placement valid exactly when
no such cell exists. -/
theorem c4_gap_iff (b : Board) (p : List PlacedTile) (f : Bool)
    (hne : p ≠ [])
    (hline : allSameRow p = true ∨ allSameCol p = true)
    (hcells : checkCells b p = Option.none)
    (hfirst : f = true →
      (p.any fun t => t.row == 7 && t.col == 7) = true ∧ 2 ≤ p.length)
    (hconn : f = false → touchesExisting b p = true) :
    (validatePlacement b p f = VResult.invalid "Gaps in placement" ↔
      gapInSpan b p) ∧
    (validatePlacement b p f = VResult.valid ↔ ¬ gapInSpan b p) := by
  match p, hne with
  | t0 :: rest, _ =>
    have hnotboth : (!allSameRow (t0 :: rest) && !allSameCol (t0 :: rest)) = false := by
      rcases hline with h | h <;> simp [h]
    have hred : validatePlacement b (t0 :: rest) f =
        (if allSameRow (t0 :: rest) then
          if rowGapScan b (t0 :: rest) t0.row then
            VResult.invalid "Gaps in placement" else .valid
        else
          if colGapScan b (t0 :: rest) t0.col then
            VResult.invalid "Gaps in placement" else .valid) := by
      cases f
      · simp [validatePlacement, hnotboth, hcells, hconn rfl]
      · obtain ⟨hc7, hlen⟩ := hfirst rfl
        simp only [List.length_cons] at hlen
        simp [validatePlacement, hnotboth, hcells, hc7]
        exact fun hlt => absurd hlt (by omega)
    rw [hred]
    by_cases hsr : allSameRow (t0 :: rest) = true
    · have hspan : gapInSpan b (t0 :: rest) ↔
          rowGapScan b (t0 :: rest) t0.row = true := by
        simp only [gapInSpan]
        rw [if_pos hsr]
        exact (rowGapScan_iff b t0 rest t0.row).symm
      rw [if_pos hsr]
      cases hscan : rowGapScan b (t0 :: rest) t0.row <;>
        simp [hspan, hscan]
    · have hsr' : allSameRow (t0 :: rest) = false := Bool.eq_false_iff.mpr hsr
      have hspan : gapInSpan b (t0 :: rest) ↔
          colGapScan b (t0 :: rest) t0.col = true := by
        simp only [gapInSpan]
        rw [if_neg (by simp [hsr'])]
        exact (colGapScan_iff b t0 rest t0.col).symm
      rw [if_neg (by simp [hsr'])]
      cases hscan : colGapScan b (t0 :: rest) t0.col <;>
        simp [hspan, hscan]

/-- Witness for `c4_gap_iff`: a first-move placement at (7,7) and (7,9)
passes every earlier rule, and the gap at (7,8) makes both sides of the
equivalence true. -/
theorem c4_gap_iff_witness :
    checkCells createEmptyBoard gapTiles = Option.none ∧
    (validatePlacement createEmptyBoard gapTiles true =
        VResult.invalid "Gaps in placement" ↔
      gapInSpan createEmptyBoard gapTiles) := by
  refine ⟨by decide, ?_⟩
  exact (c4_gap_iff createEmptyBoard gapTiles true (by decide)
    (Or.inl (by decide)) (by decide)
    (fun _ => ⟨by decide, by decide⟩)
    (fun hf => absurd hf (by decide))).1

/-- C10: in a started, unfinished room, every rejected `place_tiles`
message leaves the room exactly as it was and produces exactly one send,
to the sender, naming the reason: "Not your turn" out of turn, "No tiles
placed" for an empty payload, "Invalid tile" when some tile id is not in
the sender's rack, the validator's error when geometry fails, and
"... is not a valid word" naming the first invalid word. -/
theorem c10_rejections_atomic (room : GameRoom) (sender : Bool)
    (tiles : List PlacedTile)
    (hstart : room.started = true) (hgo : room.gameOver = false) :
    (sender ≠ room.currentTurnIndex →
      handlePlaceTiles room sender tiles =
        (room, [(sender, ServerMsg.errorMsg "Not your turn")])) ∧
    (sender = room.currentTurnIndex → tiles = [] →
      handlePlaceTiles room sender tiles =
        (room, [(sender, ServerMsg.errorMsg "No tiles placed")])) ∧
    (sender = room.currentTurnIndex → tiles ≠ [] →
      (tiles.any fun pt =>
        !((room.player sender).rack.any fun t => t.id == pt.id)) = true →
      handlePlaceTiles room sender tiles =
        (room, [(sender, ServerMsg.errorMsg "Invalid tile")])) ∧
    (∀ e, sender = room.currentTurnIndex → tiles ≠ [] →
      (tiles.any fun pt =>
        !((room.player sender).rack.any fun t => t.id == pt.id)) = false →
      validatePlacement room.board tiles room.isFirstMove = VResult.invalid e →
      handlePlaceTiles room sender tiles =
        (room, [(sender, ServerMsg.moveRejected e)])) ∧
    (∀ fw fws, sender = room.currentTurnIndex → tiles ≠ [] →
      (tiles.any fun pt =>
        !((room.player sender).rack.any fun t => t.id == pt.id)) = false →
      validatePlacement room.board tiles room.isFirstMove = VResult.valid →
      ((getFormedWords room.board tiles).filter
        fun w => !isValidWord w.word) = fw :: fws →
      handlePlaceTiles room sender tiles =
        (room, [(sender,
          ServerMsg.moveRejected ("\"" ++ fw.word ++ "\" is not a valid word"))])) := by
  refine ⟨?_, ?_, ?_, ?_, ?_⟩
  · intro hturn
    have hbne : (sender != room.currentTurnIndex) = true := bne_iff_ne.mpr hturn
    simp [handlePlaceTiles, hstart, hgo, hbne]
  · intro hturn hnil
    have hbne : (sender != room.currentTurnIndex) = false := by
      simp [bne_eq_false_iff_eq, hturn]
    simp [handlePlaceTiles, hstart, hgo, hbne, hnil]
  · intro hturn hne hbad
    have hbne : (sender != room.currentTurnIndex) = false := by
      simp [bne_eq_false_iff_eq, hturn]
    have hlen : (tiles.length == 0) = false := by
      simp [List.length_eq_zero, hne]
    simp [handlePlaceTiles, hstart, hgo, hbne, hlen, hbad]
  · intro e hturn hne hids hval
    have hbne : (sender != room.currentTurnIndex) = false := by
      simp [bne_eq_false_iff_eq, hturn]
    have hlen : (tiles.length == 0) = false := by
      simp [List.length_eq_zero, hne]
    simp [handlePlaceTiles, hstart, hgo, hbne, hlen, hids, hval]
  · intro fw fws hturn hne hids hval hbadword
    have hbne : (sender != room.currentTurnIndex) = false := by
      simp [bne_eq_false_iff_eq, hturn]
    have hlen : (tiles.length == 0) = false := by
      simp [List.length_eq_zero, hne]
    simp [handlePlaceTiles, hstart, hgo, hbne, hlen, hids, hval, hbadword]

/-- Witness for `c10_rejections_atomic`: in the fresh room `roomA` it is
player 0's turn, and player 1's `place_tiles` is answered by exactly one
"Not your turn" error to player 1 with the room unchanged. -/
theorem c10_rejections_atomic_witness :
    roomA.started = true ∧ roomA.gameOver = false ∧
    handlePlaceTiles roomA true catTiles =
      (roomA, [(true, ServerMsg.errorMsg "Not your turn")]) := by
  refine ⟨rfl, rfl, ?_⟩
  exact (c10_rejections_atomic roomA true catTiles rfl rfl).1 (by decide)

/-- C9: when the mover passes with three consecutive passes already
recorded (the counter reaches 4), the room becomes game-over, each
player's rack value is deducted from their score, the winner is decided by
comparing the adjusted scores (higher wins, equal is "Tie"); and once a
room is game-over, none of `place_tiles`, `pass_turn`, `exchange_tiles`
changes it or answers anything. -/
theorem c9_four_passes_end (room : GameRoom) (sender : Bool)
    (hstart : room.started = true) (hgo : room.gameOver = false)
    (hturn : sender = room.currentTurnIndex)
    (hp : 3 ≤ room.consecutivePasses) :
    ((handlePassTurn room sender).1.gameOver = true ∧
     (handlePassTurn room sender).1.player0.score =
       room.player0.score - rackValue room.player0.rack ∧
     (handlePassTurn room sender).1.player1.score =
       room.player1.score - rackValue room.player1.rack ∧
     (handlePassTurn room sender).1.winner =
       some (winnerByScore
         (room.player0.score - rackValue room.player0.rack)
         (room.player1.score - rackValue room.player1.rack)
         room.player0.name room.player1.name)) ∧
    (∀ (r : GameRoom) (s : Bool) (m : ClientMsg), r.gameOver = true →
      serverStep r s m = (r, [])) := by
  constructor
  · have hbne : (sender != room.currentTurnIndex) = false := by
      simp [bne_eq_false_iff_eq, hturn]
    have hp4 : room.consecutivePasses + 1 ≥ 4 := by omega
    simp [handlePassTurn, hstart, hgo, hbne, hp4]
  · intro r s m hr
    cases m <;>
      simp [serverStep, handlePlaceTiles, handlePassTurn, handleExchangeTiles, hr]

/-- Witness for `c9_four_passes_end`: `passRoom` holds three consecutive
passes; player 0's pass ends the game. -/
theorem c9_four_passes_end_witness :
    passRoom.consecutivePasses = 3 ∧
    (handlePassTurn passRoom false).1.gameOver = true := by
  refine ⟨rfl, ?_⟩
  exact ((c9_four_passes_end passRoom false rfl rfl rfl (by decide)).1).1

/-- C8: when an accepted play empties the mover's rack while the bag is
empty, the mover gains the opponent's remaining rack value `v` on top of
the move score and the opponent loses `v` — in the multiplayer handler and
in the single-player `submitMove` alike. -/
theorem c8_endgame_settlement :
    (∀ (room : GameRoom) (sender : Bool) (tiles : List PlacedTile),
      room.started = true → room.gameOver = false →
      sender = room.currentTurnIndex →
      (tiles.length == 0) = false →
      (tiles.any fun pt =>
        !((room.player sender).rack.any fun t => t.id == pt.id)) = false →
      validatePlacement room.board tiles room.isFirstMove = VResult.valid →
      ((getFormedWords room.board tiles).filter
        fun w => !isValidWord w.word) = [] →
      room.tileBag = [] →
      ((room.player sender).rack.filter fun t =>
        !(tiles.any fun pt => pt.id == t.id)) = [] →
      ((handlePlaceTiles room sender tiles).1.player sender).score =
        (room.player sender).score + calculateScore room.board tiles +
          rackValue (room.player (!sender)).rack ∧
      ((handlePlaceTiles room sender tiles).1.player (!sender)).score =
        (room.player (!sender)).score - rackValue (room.player (!sender)).rack ∧
      (handlePlaceTiles room sender tiles).1.gameOver = true) ∧
    (∀ (gs : GameState) (pending : List PlacedTile),
      (pending.length == 0) = false →
      validatePlacement gs.board pending gs.isFirstMove = VResult.valid →
      ((getFormedWords gs.board pending).filter
        fun w => !isValidWord w.word) = [] →
      gs.tileBag = [] → gs.playerRack = [] →
      ∃ gs' sc, submitMove gs pending = .ok (gs', sc) ∧
        sc = calculateScore gs.board pending ∧
        gs'.playerScore = gs.playerScore + sc + rackValue gs.aiRack ∧
        gs'.aiScore = gs.aiScore - rackValue gs.aiRack ∧
        gs'.gameOver = true) := by
  constructor
  · intro room sender tiles hstart hgo hturn hlen hids hval hwords hbag hrack
    have hbne : (sender != room.currentTurnIndex) = false := by
      simp [bne_eq_false_iff_eq, hturn]
    simp only [handlePlaceTiles, hstart, hgo, hbne, hlen, hids, hval, hwords,
      hbag, hrack, drawTiles, Bool.not_true, Bool.false_or, Bool.or_false,
      if_false, Bool.false_eq_true, List.take_nil, List.drop_nil,
      List.append_nil, List.nil_append, List.length_nil]
    cases sender <;>
      simp [GameRoom.player, GameRoom.withPlayer]
  · intro gs pending hlen hval hwords hbag hrackE
    simp only [submitMove, hlen, hval, hwords, hbag, hrackE, drawTiles,
      List.take_nil, List.drop_nil, List.length_nil, List.append_nil,
      Bool.false_eq_true, if_false, calculateEndgameDeductions]
    refine ⟨_, _, rfl, rfl, ?_, ?_, ?_⟩ <;> simp

/-- Witness for `c8_endgame_settlement`: in `endgameRoom` (empty bag,
mover's rack exactly "ZA") the accepted play of `zaTiles` settles
100 + 22 + 18 against 200 − 18; in the single-player `endgameGs` the same
play settles 50 + 22 + 18 against 60 − 18. -/
theorem c8_endgame_settlement_witness :
    endgameRoom.tileBag = [] ∧
    ((handlePlaceTiles endgameRoom false zaTiles).1.player false).score =
      (endgameRoom.player false).score +
        calculateScore endgameRoom.board zaTiles +
        rackValue (endgameRoom.player (!false)).rack ∧
    ∃ gs' sc, submitMove endgameGs zaTiles = .ok (gs', sc) ∧
      sc = calculateScore endgameGs.board zaTiles ∧
      gs'.playerScore = endgameGs.playerScore + sc + rackValue endgameGs.aiRack ∧
      gs'.aiScore = endgameGs.aiScore - rackValue endgameGs.aiRack ∧
      gs'.gameOver = true := by
  refine ⟨rfl, ?_, ?_⟩
  · exact ((c8_endgame_settlement.1 endgameRoom false zaTiles rfl rfl rfl
      (by decide) (by decide) (by decide) (by decide) rfl (by decide))).1
  · exact c8_endgame_settlement.2 endgameGs zaTiles
      (by decide) (by decide) (by decide) rfl rfl

/-- C2 (amended): an accepted `place_tiles` proves that every submitted
tile id is present in the sender's rack, and the committed board is the
old board with exactly the client's tile objects applied — the server
re-validates ids, geometry and words, but the letter/value/isBlank data
committed are the client's, not the rack's.  A payload with an unknown id
is rejected outright with the room unchanged. -/
theorem c2_id_checked_data_client (room : GameRoom) (sender : Bool)
    (tiles : List PlacedTile)
    (hstart : room.started = true) (hgo : room.gameOver = false)
    (hturn : sender = room.currentTurnIndex)
    (hlen : (tiles.length == 0) = false)
    (hids : (tiles.any fun pt =>
      !((room.player sender).rack.any fun t => t.id == pt.id)) = false)
    (hval : validatePlacement room.board tiles room.isFirstMove = VResult.valid)
    (hwords : ((getFormedWords room.board tiles).filter
      fun w => !isValidWord w.word) = []) :
    (∀ pt ∈ tiles, ∃ t ∈ (room.player sender).rack, t.id = pt.id) ∧
    (handlePlaceTiles room sender tiles).1.board =
      tiles.foldl setTileAt room.board ∧
    (∀ tiles2 : List PlacedTile, (tiles2.length == 0) = false →
      (tiles2.any fun pt =>
        !((room.player sender).rack.any fun t => t.id == pt.id)) = true →
      handlePlaceTiles room sender tiles2 =
        (room, [(sender, ServerMsg.errorMsg "Invalid tile")])) := by
  have hbne : (sender != room.currentTurnIndex) = false := by
    simp [bne_eq_false_iff_eq, hturn]
  refine ⟨?_, ?_, ?_⟩
  · intro pt hpt
    have h1 := List.any_eq_false.mp hids pt hpt
    rcases h2 : (room.player sender).rack.any fun t => t.id == pt.id with _ | _
    · rw [h2] at h1; simp at h1
    · obtain ⟨t, ht, hid⟩ := List.any_eq_true.mp h2
      exact ⟨t, ht, by simpa using hid⟩
  · simp only [handlePlaceTiles, hstart, hgo, hbne, hlen, hids, hval, hwords,
      Bool.not_true, Bool.false_or, Bool.or_false, if_false,
      Bool.false_eq_true]
  · intro tiles2 hlen2 hids2
    simp [handlePlaceTiles, hstart, hgo, hbne, hlen2, hids2]

/-- Witness for `c2_id_checked_data_client` at the accepted (forged)
message of the counterexample: all ids are rack ids and the board equals
the fold of the client tiles. -/
theorem c2_id_checked_data_client_witness :
    ((forgedTiles.any fun pt =>
      !((roomA.player false).rack.any fun t => t.id == pt.id)) = false) ∧
    (handlePlaceTiles roomA false forgedTiles).1.board =
      forgedTiles.foldl setTileAt roomA.board := by
  refine ⟨by decide, ?_⟩
  exact (c2_id_checked_data_client roomA false forgedTiles rfl rfl rfl
    (by decide) (by decide) (by decide) (by decide)).2.1

/-- Tile-occupancy equality of boards is preserved by applying the same
candidate tiles. -/
theorem tempBoard_tiles_eq (p : List PlacedTile) :
    ∀ (b1 b2 : Board), (∀ r c, (b1 r c).tile = (b2 r c).tile) →
      ∀ r c, (tempBoardOf b1 p r c).tile = (tempBoardOf b2 p r c).tile := by
  induction p with
  | nil => exact fun b1 b2 h => h
  | cons t rest ih =>
    intro b1 b2 h r c
    refine ih (setTileAt b1 t) (setTileAt b2 t) ?_ r c
    intro r' c'
    cases hc : (r' == t.row && c' == t.col) <;> simp [setTileAt, hc, h r' c']

/-- `walkBack` only looks at the occupancy function. -/
theorem walkBack_congr (occ1 occ2 : Int → Bool) (h : ∀ x, occ1 x = occ2 x) :
    ∀ (fuel : Nat) (x : Int), walkBack occ1 fuel x = walkBack occ2 fuel x
  | 0, _ => rfl
  | fuel + 1, x => by
    simp only [walkBack, h]
    cases (x > 0 : Bool) && occ2 (x - 1) <;>
      simp [walkBack_congr occ1 occ2 h fuel]

/-- `collectRun` is determined by tile occupancy-and-content and by the
placed-coordinate predicate. -/
theorem collectRun_congr (tb1 tb2 : Board) (p q : List PlacedTile)
    (fixed : Int) (horiz : Bool)
    (ht : ∀ r c, (tb1 r c).tile = (tb2 r c).tile)
    (hn : ∀ r c, isNewCell p r c = isNewCell q r c) :
    ∀ (fuel : Nat) (x : Int), collectRun tb1 p fixed horiz fuel x =
      collectRun tb2 q fixed horiz fuel x
  | 0, _ => rfl
  | fuel + 1, x => by
    simp only [collectRun, ht, hn]
    cases (tb2 (if horiz then fixed else x) (if horiz then x else fixed)).tile <;>
      simp [collectRun_congr tb1 tb2 p q fixed horiz ht hn fuel]

/-- `wordAt` is determined by tile occupancy-and-content and the placed
predicate. -/
theorem wordAt_congr (tb1 tb2 : Board) (p q : List PlacedTile)
    (sr sc : Int) (horiz : Bool)
    (ht : ∀ r c, (tb1 r c).tile = (tb2 r c).tile)
    (hn : ∀ r c, isNewCell p r c = isNewCell q r c) :
    wordAt tb1 p sr sc horiz = wordAt tb2 q sr sc horiz := by
  simp only [wordAt]
  rw [walkBack_congr (fun x => if horiz = true then occAt tb1 sr x else occAt tb1 x sc)
    (fun x => if horiz = true then occAt tb2 sr x else occAt tb2 x sc)
    (fun x => by cases horiz <;> simp [occAt, ht]),
    collectRun_congr tb1 tb2 p q _ horiz ht hn]

/-- An entry of `collectRun` carries `isNew` exactly as the placed-set
test of its own coordinates. -/
theorem collectRun_isNew (tb : Board) (p : List PlacedTile) (fixed : Int)
    (horiz : Bool) :
    ∀ (fuel : Nat) (x : Int), ∀ e ∈ collectRun tb p fixed horiz fuel x,
      e.isNew = isNewCell p e.row e.col
  | 0, _ => by simp [collectRun]
  | fuel + 1, x => by
    intro e he
    simp only [collectRun] at he
    split at he
    · rcases hcell : (tb (if horiz then fixed else x)
          (if horiz then x else fixed)).tile with _ | t
      · rw [hcell] at he; simp at he
      · rw [hcell] at he
        rcases List.mem_cons.mp he with h1 | h2
        · subst h1; rfl
        · exact collectRun_isNew tb p fixed horiz fuel (x + 1) e h2
    · simp at he

/-- The entries of any word produced by `wordAt` carry `isNew` exactly as
the placed-set test of their coordinates. -/
theorem wordAt_isNew (tb : Board) (p : List PlacedTile) (sr sc : Int)
    (horiz : Bool) (w : FormedWord)
    (h : wordAt tb p sr sc horiz = some w) :
    ∀ e ∈ w.tiles, e.isNew = isNewCell p e.row e.col := by
  revert h
  simp only [wordAt]
  cases horiz <;>
    simp only [Bool.false_eq_true, if_false, eq_self_iff_true, if_true] <;>
    intro h <;> split at h
  · rw [Option.some_inj] at h
    subst h
    exact collectRun_isNew tb p _ _ 15 _
  · exact Option.noConfusion h
  · rw [Option.some_inj] at h
    subst h
    exact collectRun_isNew tb p _ _ 15 _
  · exact Option.noConfusion h

/-- Deduplication only drops elements. -/
theorem dedupByKey_subset :
    ∀ (l : List FormedWord) (seen : List (Int × Int × Int × Int)),
      ∀ w ∈ dedupByKey l seen, w ∈ l
  | [], _ => by simp [dedupByKey]
  | w' :: rest, seen => by
    intro w hw
    simp only [dedupByKey] at hw
    split at hw
    · exact List.mem_cons_of_mem _ (dedupByKey_subset rest _ w hw)
    · rcases List.mem_cons.mp hw with h1 | h2
      · exact h1 ▸ List.mem_cons_self _ _
      · exact List.mem_cons_of_mem _ (dedupByKey_subset rest _ w h2)

/-- Every word of `getFormedWords` is produced by some `wordAt` call on
the scratch board. -/
theorem getFormedWords_from_wordAt (b : Board) (p : List PlacedTile) :
    ∀ w ∈ getFormedWords b p, ∃ sr sc horiz,
      wordAt (tempBoardOf b p) p sr sc horiz = some w := by
  match p with
  | [] => simp [getFormedWords]
  | t0 :: rest =>
    intro w hw
    have hw2 := dedupByKey_subset _ _ w hw
    rw [List.mem_append] at hw2
    rcases hw2 with h | h
    · rcases List.mem_append.mp h with h1 | h1 <;>
        [skip; skip] <;>
      · revert h1
        split <;> intro h1
        · simp only [Option.mem_toList, Option.mem_def] at h1
          exact ⟨_, _, _, h1⟩
        · simp at h1
    · rw [List.mem_flatten] at h
      obtain ⟨chunk, hchunk, hwc⟩ := h
      rw [List.mem_map] at hchunk
      obtain ⟨t, _, rfl⟩ := hchunk
      rcases List.mem_append.mp hwc with h1 | h1 <;>
        [skip; skip] <;>
      · revert h1
        split <;> intro h1
        · simp only [Option.mem_toList, Option.mem_def] at h1
          exact ⟨_, _, _, h1⟩
        · simp at h1

/-- The placed-set test spelled out. -/
theorem isNewCell_iff (p : List PlacedTile) (r c : Int) :
    isNewCell p r c = true ↔ ∃ t ∈ p, t.row = r ∧ t.col = c := by
  simp [isNewCell, List.any_eq_true]

/-- Formed words depend on the board only through tile occupancy and
content, never through premiums. -/
theorem getFormedWords_congr (b1 b2 : Board) (p : List PlacedTile)
    (ht : ∀ r c, (b1 r c).tile = (b2 r c).tile) :
    getFormedWords b1 p = getFormedWords b2 p := by
  match p with
  | [] => rfl
  | t0 :: rest =>
    have htb := tempBoard_tiles_eq (t0 :: rest) b1 b2 ht
    have hw : ∀ (sr sc : Int) (horiz : Bool),
        wordAt (tempBoardOf b1 (t0 :: rest)) (t0 :: rest) sr sc horiz =
          wordAt (tempBoardOf b2 (t0 :: rest)) (t0 :: rest) sr sc horiz :=
      fun sr sc horiz => wordAt_congr _ _ _ _ sr sc horiz htb (fun _ _ => rfl)
    simp only [getFormedWords, hw]

/-- Fold congruence for steps that agree on members. -/
theorem foldl_congr_of_mem {α β : Type} (f g : β → α → β) (l : List α)
    (h : ∀ a ∈ l, ∀ b, f b a = g b a) : ∀ b, l.foldl f b = l.foldl g b := by
  induction l with
  | nil => intro b; rfl
  | cons a rest ih =>
    intro b
    simp only [List.foldl_cons, h a (List.mem_cons_self a rest)]
    exact ih (fun a' ha' b' => h a' (List.mem_cons_of_mem _ ha') b') _

/-- A word's score depends on premiums only at its newly placed cells. -/
theorem scoreWord_congr (b1 b2 : Board) (w : FormedWord)
    (h : ∀ e ∈ w.tiles, e.isNew = true →
      (b1 e.row e.col).premium = (b2 e.row e.col).premium) :
    scoreWord b1 w = scoreWord b2 w := by
  simp only [scoreWord]
  rw [foldl_congr_of_mem _ _ w.tiles ?_]
  intro e he a
  cases hn : e.isNew
  · simp [hn]
  · simp only [hn, if_true]
    rw [h e he hn]

/-- C6: premium multipliers hit exactly the newly placed cells.  First:
the move score is unchanged by altering premiums anywhere outside the
placed cells (given identical tile occupancy), so a premium under a
prior-move tile never contributes.  Second: the `isNew` flag that gates
every DL/TL/DW/TW/center effect in the scorer is true precisely for cells
placed in the current move. -/
theorem c6_premium_only_new (b1 b2 : Board) (p : List PlacedTile)
    (htiles : ∀ r c, (b1 r c).tile = (b2 r c).tile)
    (hprem : ∀ t ∈ p, (b1 t.row t.col).premium = (b2 t.row t.col).premium) :
    calculateScore b1 p = calculateScore b2 p ∧
    (∀ w ∈ getFormedWords b1 p, ∀ e ∈ w.tiles,
      (e.isNew = true ↔ ∃ t ∈ p, t.row = e.row ∧ t.col = e.col)) := by
  have hb : ∀ w ∈ getFormedWords b1 p, ∀ e ∈ w.tiles,
      e.isNew = isNewCell p e.row e.col := by
    intro w hw
    obtain ⟨sr, sc, horiz, hww⟩ := getFormedWords_from_wordAt b1 p w hw
    exact wordAt_isNew _ _ _ _ _ _ hww
  constructor
  · have hfold : (getFormedWords b2 p).foldl
        (fun acc w => acc + scoreWord b1 w) 0 =
        (getFormedWords b2 p).foldl (fun acc w => acc + scoreWord b2 w) 0 := by
      refine foldl_congr_of_mem _ _ _ ?_ 0
      intro w hw a
      have hw1 : w ∈ getFormedWords b1 p := by
        rw [getFormedWords_congr b1 b2 p htiles]; exact hw
      rw [scoreWord_congr b1 b2 w ?_]
      intro e he hnew
      have h1 : isNewCell p e.row e.col = true := (hb w hw1 e he) ▸ hnew
      obtain ⟨t, htp, hr, hc⟩ := (isNewCell_iff p e.row e.col).mp h1
      rw [← hr, ← hc]
      exact hprem t htp
    simp only [calculateScore, getFormedWords_congr b1 b2 p htiles, hfold]
  · intro w hw e he
    rw [hb w hw e he]
    exact isNewCell_iff p e.row e.col

/-- Witness for `c6_premium_only_new`: erasing the triple-word premium
under the prior-move tile at (0,0) leaves the score of the hooked "AB"
unchanged, and its word entries are flagged new exactly at (1,0) and
(2,0). -/
theorem c6_premium_only_new_witness :
    (∀ r c, (priorBoard r c).tile = (priorBoardNoPremium r c).tile) ∧
    calculateScore priorBoard hookTiles =
      calculateScore priorBoardNoPremium hookTiles := by
  have htiles : ∀ r c, (priorBoard r c).tile = (priorBoardNoPremium r c).tile := by
    intro r c
    cases h : (r == 0 && c == 0) <;> simp [priorBoardNoPremium, h]
  refine ⟨htiles, ?_⟩
  exact (c6_premium_only_new priorBoard priorBoardNoPremium hookTiles htiles
    (by decide)).1

/-- A placement that validates has passed the bounds/occupancy loop. -/
theorem valid_checkCells (b : Board) (p : List PlacedTile) (f : Bool)
    (h : validatePlacement b p f = VResult.valid) :
    checkCells b p = Option.none := by
  match p with
  | [] => exact absurd h (by simp [validatePlacement])
  | t0 :: rest =>
    cases hc : checkCells b (t0 :: rest) with
    | none => rfl
    | some e =>
      exfalso
      simp only [validatePlacement, hc] at h
      split at h
      · exact VResult.noConfusion h
      · exact VResult.noConfusion h

/-- What passing the bounds/occupancy loop says about each tile. -/
theorem checkCells_none_facts (b : Board) :
    ∀ (p : List PlacedTile), checkCells b p = Option.none →
      ∀ t ∈ p, (0 ≤ t.row ∧ t.row ≤ 14 ∧ 0 ≤ t.col ∧ t.col ≤ 14) ∧
        (b t.row t.col).tile = Option.none
  | [], _, t, ht => absurd ht (List.not_mem_nil t)
  | t0 :: rest, h, t, ht => by
    simp only [checkCells] at h
    split at h
    · exact Option.noConfusion h
    · split at h
      · exact Option.noConfusion h
      · rcases List.mem_cons.mp ht with h1 | h2
        · subst h1
          constructor
          · rename_i hbnd _
            push_neg at hbnd
            omega
          · rename_i hocc
            exact Option.not_isSome_iff_eq_none.mp hocc
        · exact checkCells_none_facts b rest h t h2

/-- Setting one in-bounds, previously empty cell raises the occupied-cell
count by one. -/
theorem boardTileCount_setTileAt (b : Board) (t : PlacedTile)
    (hb : 0 ≤ t.row ∧ t.row ≤ 14 ∧ 0 ≤ t.col ∧ t.col ≤ 14)
    (he : (b t.row t.col).tile = Option.none) :
    boardTileCount (setTileAt b t) = boardTileCount b + 1 := by
  unfold boardTileCount
  have hmem : (t.row, t.col) ∈ (Finset.Icc (0 : Int) 14) ×ˢ (Finset.Icc (0 : Int) 14) := by
    simp only [Finset.mem_product, Finset.mem_Icc]
    omega
  have hset : (((Finset.Icc (0 : Int) 14) ×ˢ (Finset.Icc (0 : Int) 14)).filter
        fun rc => ((setTileAt b t) rc.1 rc.2).tile.isSome = true) =
      insert (t.row, t.col)
        (((Finset.Icc (0 : Int) 14) ×ˢ (Finset.Icc (0 : Int) 14)).filter
          fun rc => (b rc.1 rc.2).tile.isSome = true) := by
    ext rc
    simp only [Finset.mem_insert, Finset.mem_filter]
    constructor
    · rintro ⟨hin, hsome⟩
      by_cases hrc : rc = (t.row, t.col)
      · exact Or.inl hrc
      · refine Or.inr ⟨hin, ?_⟩
        have hcond : (rc.1 == t.row && rc.2 == t.col) = false := by
          cases h1 : rc.1 == t.row <;> cases h2 : rc.2 == t.col <;>
            simp_all [Prod.ext_iff]
        simpa [setTileAt, hcond] using hsome
    · rintro (rfl | ⟨hin, hsome⟩)
      · exact ⟨hmem, by simp [setTileAt]⟩
      · refine ⟨hin, ?_⟩
        cases hc : (rc.1 == t.row && rc.2 == t.col)
        · simpa [setTileAt, hc] using hsome
        · simp [setTileAt, hc]
  rw [hset, Finset.card_insert_of_not_mem]
  simp [he]

/-- Committing a list of tiles at pairwise-distinct, in-bounds, previously
empty cells raises the occupied-cell count by the number of tiles. -/
theorem boardTileCount_fold :
    ∀ (p : List PlacedTile) (b : Board),
      (p.map fun t => (t.row, t.col)).Nodup →
      (∀ t ∈ p, (0 ≤ t.row ∧ t.row ≤ 14 ∧ 0 ≤ t.col ∧ t.col ≤ 14) ∧
        (b t.row t.col).tile = Option.none) →
      boardTileCount (p.foldl setTileAt b) = boardTileCount b + p.length
  | [], b, _, _ => by simp
  | t :: rest, b, hnd, hfacts => by
    simp only [List.map_cons, List.nodup_cons] at hnd
    have hstep := boardTileCount_setTileAt b t
      (hfacts t (List.mem_cons_self t rest)).1
      (hfacts t (List.mem_cons_self t rest)).2
    have hrest : ∀ u ∈ rest,
        (0 ≤ u.row ∧ u.row ≤ 14 ∧ 0 ≤ u.col ∧ u.col ≤ 14) ∧
        ((setTileAt b t) u.row u.col).tile = Option.none := by
      intro u hu
      refine ⟨(hfacts u (List.mem_cons_of_mem _ hu)).1, ?_⟩
      have hne : ¬((u.row, u.col) = (t.row, t.col)) := by
        intro hcontr
        exact hnd.1 (hcontr ▸ List.mem_map_of_mem (fun x => (x.row, x.col)) hu)
      have hcond : (u.row == t.row && u.col == t.col) = false := by
        cases h1 : u.row == t.row <;> cases h2 : u.col == t.col <;>
          simp_all [Prod.ext_iff]
      simp [setTileAt, hcond, (hfacts u (List.mem_cons_of_mem _ hu)).2]
    calc boardTileCount ((t :: rest).foldl setTileAt b)
        = boardTileCount (rest.foldl setTileAt (setTileAt b t)) := rfl
      _ = boardTileCount (setTileAt b t) + rest.length :=
          boardTileCount_fold rest (setTileAt b t) hnd.2 hrest
      _ = boardTileCount b + (t :: rest).length := by
          rw [hstep]; simp; omega

/-- The two complementary filters of a list split its length. -/
theorem length_filter_not_add {α : Type} (p : α → Bool) :
    ∀ l : List α,
      (l.filter fun x => !(p x)).length + (l.filter p).length = l.length
  | [] => rfl
  | a :: l => by
    have ih := length_filter_not_add p l
    cases h : p a <;> simp [List.filter_cons, h] <;> omega

/-- Filtering a mapped predicate has the same length as filtering the
image list. -/
theorem length_filter_comp {α β : Type} (f : α → β) (q : β → Bool) :
    ∀ l : List α,
      (l.filter fun x => q (f x)).length = ((l.map f).filter q).length
  | [] => rfl
  | a :: l => by
    cases h : q (f a) <;>
      simp [List.filter_cons, h, length_filter_comp f q l]

/-- When every submitted id names a rack tile, rack ids are distinct and
submitted ids are distinct, the rack tiles matching the submitted ids
number exactly the submitted tiles. -/
theorem rack_filter_any_length (rack : List Tile) (tiles : List PlacedTile)
    (hrackN : (rack.map Tile.id).Nodup)
    (htilesN : (tiles.map fun t => t.id).Nodup)
    (hsub : ∀ pt ∈ tiles, ∃ t ∈ rack, t.id = pt.id) :
    (rack.filter fun t => tiles.any fun pt => pt.id == t.id).length =
      tiles.length := by
  have hpred : ∀ t : Tile,
      (tiles.any fun pt => pt.id == t.id) =
        decide (t.id ∈ tiles.map fun pt => pt.id) := by
    intro t
    cases h : tiles.any fun pt => pt.id == t.id
    · symm
      rw [decide_eq_false_iff_not]
      intro hmem
      obtain ⟨pt, hpt, hid⟩ := List.mem_map.mp hmem
      have : (tiles.any fun pt => pt.id == t.id) = true :=
        List.any_eq_true.mpr ⟨pt, hpt, by simp [hid]⟩
      rw [h] at this
      exact Bool.noConfusion this
    · symm
      rw [decide_eq_true_eq]
      obtain ⟨pt, hpt, hid⟩ := List.any_eq_true.mp h
      exact List.mem_map.mpr ⟨pt, hpt, by simpa using hid.symm⟩
  have h1 : (rack.filter fun t => tiles.any fun pt => pt.id == t.id) =
      rack.filter fun t => decide (t.id ∈ tiles.map fun pt => pt.id) :=
    List.filter_congr fun t _ => hpred t
  rw [h1, length_filter_comp Tile.id
    (fun i => decide (i ∈ tiles.map fun pt => pt.id)) rack]
  have hperm : ((rack.map Tile.id).filter
      fun i => decide (i ∈ tiles.map fun pt => pt.id)).Perm
      (tiles.map fun pt => pt.id) := by
    rw [List.perm_ext_iff_of_nodup (hrackN.filter _) htilesN]
    intro i
    simp only [List.mem_filter, decide_eq_true_eq]
    constructor
    · exact fun h => h.2
    · intro h
      refine ⟨?_, h⟩
      obtain ⟨pt, hpt, hid⟩ := List.mem_map.mp h
      obtain ⟨t, htr, htid⟩ := hsub pt hpt
      exact List.mem_map.mpr ⟨t, htr, by rw [htid, hid]⟩
  simpa using hperm.length_eq

/-- Passing the id check means every submitted id names a rack tile. -/
theorem ids_present (rack : List Tile) (tiles : List PlacedTile)
    (h : (tiles.any fun pt => !(rack.any fun t => t.id == pt.id)) = false) :
    ∀ pt ∈ tiles, ∃ t ∈ rack, t.id = pt.id := by
  intro pt hpt
  have h1 := List.any_eq_false.mp h pt hpt
  cases h2 : rack.any fun t => t.id == pt.id
  · rw [h2] at h1; simp at h1
  · obtain ⟨t, ht, hid⟩ := List.any_eq_true.mp h2
    exact ⟨t, ht, by simpa using hid⟩

/-- Seat lookup at the concrete seats. -/
theorem player_false (room : GameRoom) : room.player false = room.player0 := rfl

/-- Seat lookup at the concrete seats. -/
theorem player_true (room : GameRoom) : room.player true = room.player1 := rfl

/-- Seat update at the concrete seats. -/
theorem withPlayer_false (room : GameRoom) (pl : Player) :
    room.withPlayer false pl = { room with player0 := pl } := rfl

/-- Seat update at the concrete seats. -/
theorem withPlayer_true (room : GameRoom) (pl : Player) :
    room.withPlayer true pl = { room with player1 := pl } := rfl

/-- C1 (amended): a freshly created-and-joined room from any shuffle of
the bag holds exactly 100 tiles across bag, both racks and board; and
every handled in-game message preserves the total, provided an accepted
`place_tiles` names pairwise-distinct ids at pairwise-distinct coordinates
and the sender's rack ids are distinct — hygiene the real tile generator
guarantees but the handler does not enforce, as the counterexample
shows. -/
theorem c1_conservation :
    (∀ (bag : List Tile) (n0 n1 : String), bag.Perm createTileBag →
      totalTiles (initRoom bag n0 n1) = 100) ∧
    (∀ (room : GameRoom) (sender : Bool) (msg : ClientMsg),
      (∀ tiles, msg = ClientMsg.placeTiles tiles →
        (tiles.map fun t => t.id).Nodup ∧
        (tiles.map fun t => (t.row, t.col)).Nodup ∧
        ((room.player sender).rack.map Tile.id).Nodup) →
      totalTiles (serverStep room sender msg).1 = totalTiles room) := by
  have hempty : boardTileCount createEmptyBoard = 0 := by decide
  constructor
  · intro bag n0 n1 hperm
    have hlen : bag.length = 100 := by
      rw [hperm.length_eq]; decide
    simp [totalTiles, initRoom, drawTiles, hempty, List.length_take,
      List.length_drop, hlen]
  · intro room sender msg hmsg
    cases msg with
    | passTurn =>
      simp only [serverStep]
      cases hguard : (!room.started || room.gameOver)
      case true => simp [handlePassTurn, hguard]
      case false =>
      cases hturn : (sender != room.currentTurnIndex)
      case true => simp [handlePassTurn, hguard, hturn]
      case false =>
      by_cases hp : room.consecutivePasses + 1 ≥ 4 <;>
        simp [handlePassTurn, hguard, hturn, hp, totalTiles]
    | exchangeTiles ids =>
      simp only [serverStep]
      cases hguard : (!room.started || room.gameOver)
      case true => simp [handleExchangeTiles, hguard]
      case false =>
      by_cases hbag : room.tileBag.length < 7
      · simp [handleExchangeTiles, hguard, hbag]
      · cases hturn : (sender != room.currentTurnIndex)
        · have hpart := length_filter_not_add
            (fun t => ids.contains t.id) ((room.player sender).rack)
          cases sender <;>
            simp only [player_false, player_true] at hpart <;>
            simp at hpart <;>
            simp [handleExchangeTiles, hguard, hbag, hturn, drawTiles,
              player_false, player_true, withPlayer_false, withPlayer_true,
              totalTiles, List.length_append, List.length_take,
              List.length_drop] <;>
            omega
        · simp [handleExchangeTiles, hguard, hbag, hturn]
    | placeTiles tiles =>
      obtain ⟨hidN, hcoordN, hrackN⟩ := hmsg tiles rfl
      simp only [serverStep]
      cases hguard : (!room.started || room.gameOver)
      case true => simp [handlePlaceTiles, hguard]
      case false =>
      cases hturn : (sender != room.currentTurnIndex)
      case true => simp [handlePlaceTiles, hguard, hturn]
      case false =>
      cases hlen : (tiles.length == 0)
      case true => simp [handlePlaceTiles, hguard, hturn, hlen]
      case false =>
      cases hids : (tiles.any fun pt =>
        !((room.player sender).rack.any fun t => t.id == pt.id))
      case true => simp [handlePlaceTiles, hguard, hturn, hlen, hids]
      case false =>
      cases hval : validatePlacement room.board tiles room.isFirstMove with
      | invalid e => simp [handlePlaceTiles, hguard, hturn, hlen, hids, hval]
      | valid =>
      cases hw : (getFormedWords room.board tiles).filter
        (fun w => !isValidWord w.word) with
      | cons w ws => simp [handlePlaceTiles, hguard, hturn, hlen, hids, hval, hw]
      | nil =>
      have hsub := ids_present ((room.player sender).rack) tiles hids
      have hfacts := checkCells_none_facts room.board tiles
        (valid_checkCells room.board tiles room.isFirstMove hval)
      have hcount := boardTileCount_fold tiles room.board hcoordN hfacts
      have hfy := rack_filter_any_length ((room.player sender).rack)
        tiles hrackN hidN hsub
      have hpart := length_filter_not_add
        (fun t => tiles.any fun pt => pt.id == t.id)
        ((room.player sender).rack)
      cases sender <;>
        simp only [player_false, player_true] at hfy hpart hids <;>
        simp [handlePlaceTiles, hguard, hturn, hlen, hids, hval, hw,
          drawTiles, player_false, player_true, withPlayer_false,
          withPlayer_true, totalTiles, List.length_append, List.length_take,
          List.length_drop, hcount] <;>
        omega

/-- Witness for `c1_conservation`: the fresh room from the identity
shuffle seats 100 tiles, and a pass preserves the total. -/
theorem c1_conservation_witness :
    totalTiles (initRoom createTileBag "Player 1" "Player 2") = 100 ∧
    totalTiles (serverStep roomA false ClientMsg.passTurn).1 =
      totalTiles roomA := by
  constructor
  · exact c1_conservation.1 createTileBag "Player 1" "Player 2"
      (List.Perm.refl _)
  · exact c1_conservation.2 roomA false ClientMsg.passTurn
      (fun tiles h => ClientMsg.noConfusion h)

/-- Tiles applied to a board stay occupied under further applications. -/
theorem occAt_fold_mono :
    ∀ (p : List PlacedTile) (b : Board) (r c : Int),
      occAt b r c = true → occAt (p.foldl setTileAt b) r c = true
  | [], _, _, _, h => h
  | t :: rest, b, r, c, h => by
    refine occAt_fold_mono rest (setTileAt b t) r c ?_
    cases hc : (r == t.row && c == t.col)
    · simpa [occAt, setTileAt, hc] using h
    · simp [occAt, setTileAt, hc]

/-- Every placed tile's cell is occupied on the scratch board. -/
theorem occAt_fold_placed :
    ∀ (p : List PlacedTile) (b : Board) (t : PlacedTile), t ∈ p →
      occAt (p.foldl setTileAt b) t.row t.col = true
  | u :: rest, b, t, ht => by
    rcases List.mem_cons.mp ht with h1 | h2
    · subst h1
      refine occAt_fold_mono rest (setTileAt b t) t.row t.col ?_
      simp [occAt, setTileAt]
    · exact occAt_fold_placed rest (setTileAt b u) t h2

/-- The backward walk: its result is in [0, c], every cell strictly
between result and start is occupied, and the walk stopped at 0 or below
an unoccupied cell. -/
theorem walkBack_spec (occ : Int → Bool) :
    ∀ (fuel : Nat) (c : Int), 0 ≤ c → c.toNat < fuel →
      0 ≤ walkBack occ fuel c ∧ walkBack occ fuel c ≤ c ∧
      (∀ x, walkBack occ fuel c ≤ x → x < c → occ x = true) ∧
      (walkBack occ fuel c = 0 ∨ occ (walkBack occ fuel c - 1) = false)
  | 0, c, h0, hf => absurd hf (by omega)
  | fuel + 1, c, h0, hf => by
    rw [walkBack]
    cases hguard : ((c > 0 : Bool) && occ (c - 1))
    · rw [if_neg (by simp [hguard])]
      refine ⟨h0, le_refl c, fun x hx1 hx2 => absurd hx2 (by omega), ?_⟩
      rcases Bool.and_eq_false_iff.mp hguard with h | h
      · left
        have : ¬(c > 0) := by simpa using h
        omega
      · right; exact h
    · rw [if_pos (by simp [hguard])]
      rw [Bool.and_eq_true] at hguard
      obtain ⟨hc0, hocc⟩ := hguard
      have hcpos : 0 < c := by simpa using hc0
      have hrec := walkBack_spec occ fuel (c - 1) (by omega) (by omega)
      refine ⟨hrec.1, by omega, ?_, hrec.2.2.2⟩
      intro x hx1 hx2
      rcases lt_or_ge x (c - 1) with h | h
      · exact hrec.2.2.1 x hx1 h
      · have : x = c - 1 := by omega
        rw [this]; exact hocc

/-- Two backward walks started anywhere inside one occupied stretch end at
the same cell. -/
theorem walkBack_unique (occ : Int → Bool) (a c1 c2 : Int)
    (h0 : 0 ≤ a) (h1 : a ≤ c1) (h2 : a ≤ c2) (hc1 : c1 ≤ 14) (hc2 : c2 ≤ 14)
    (hocc1 : ∀ x, a ≤ x → x < c1 → occ x = true)
    (hocc2 : ∀ x, a ≤ x → x < c2 → occ x = true) :
    walkBack occ 15 c1 = walkBack occ 15 c2 := by
  obtain ⟨s1pos, s1le, s1occ, s1stop⟩ :=
    walkBack_spec occ 15 c1 (by omega) (by omega)
  obtain ⟨s2pos, s2le, s2occ, s2stop⟩ :=
    walkBack_spec occ 15 c2 (by omega) (by omega)
  set s1 := walkBack occ 15 c1
  set s2 := walkBack occ 15 c2
  have hs1a : s1 ≤ a := by
    by_contra h
    push_neg at h
    have hocc' : occ (s1 - 1) = true := hocc1 (s1 - 1) (by omega) (by omega)
    rcases s1stop with h' | h'
    · omega
    · rw [hocc'] at h'; exact Bool.noConfusion h'
  have hs2a : s2 ≤ a := by
    by_contra h
    push_neg at h
    have hocc' : occ (s2 - 1) = true := hocc2 (s2 - 1) (by omega) (by omega)
    rcases s2stop with h' | h'
    · omega
    · rw [hocc'] at h'; exact Bool.noConfusion h'
  rcases lt_trichotomy s1 s2 with h | h | h
  · exfalso
    have hocc' : occ (s2 - 1) = true := s1occ (s2 - 1) (by omega) (by omega)
    rcases s2stop with h' | h'
    · omega
    · rw [hocc'] at h'; exact Bool.noConfusion h'
  · exact h
  · exfalso
    have hocc' : occ (s1 - 1) = true := s2occ (s1 - 1) (by omega) (by omega)
    rcases s1stop with h' | h'
    · omega
    · rw [hocc'] at h'; exact Bool.noConfusion h'

/-- A running `max` fold returns its seed or a member's value. -/
theorem foldl_max_attained (f : PlacedTile → Int) :
    ∀ (l : List PlacedTile) (a : Int),
      l.foldl (fun m u => max m (f u)) a = a ∨
      ∃ t ∈ l, l.foldl (fun m u => max m (f u)) a = f t
  | [], a => Or.inl rfl
  | u :: rest, a => by
    rcases foldl_max_attained f rest (max a (f u)) with h | ⟨t, ht, hh⟩
    · rcases max_choice a (f u) with hm | hm
      · exact Or.inl (by rw [List.foldl_cons, h, hm])
      · exact Or.inr ⟨u, by simp, by rw [List.foldl_cons, h, hm]⟩
    · exact Or.inr ⟨t, by simp [ht], by rw [List.foldl_cons, hh]⟩

/-- A running `min` fold returns its seed or a member's value. -/
theorem foldl_min_attained (f : PlacedTile → Int) :
    ∀ (l : List PlacedTile) (a : Int),
      l.foldl (fun m u => min m (f u)) a = a ∨
      ∃ t ∈ l, l.foldl (fun m u => min m (f u)) a = f t
  | [], a => Or.inl rfl
  | u :: rest, a => by
    rcases foldl_min_attained f rest (min a (f u)) with h | ⟨t, ht, hh⟩
    · rcases min_choice a (f u) with hm | hm
      · exact Or.inl (by rw [List.foldl_cons, h, hm])
      · exact Or.inr ⟨u, by simp, by rw [List.foldl_cons, h, hm]⟩
    · exact Or.inr ⟨t, by simp [ht], by rw [List.foldl_cons, hh]⟩

/-- The i-th collected entry sits i cells beyond the start along the walk
axis, and on the fixed coordinate across it. -/
theorem collectRun_axis (tb : Board) (p : List PlacedTile) (fixed : Int)
    (horiz : Bool) :
    ∀ (fuel : Nat) (x : Int) (i : Nat) (e : WordTile),
      (collectRun tb p fixed horiz fuel x)[i]? = some e →
      e.row = (if horiz then fixed else x + i) ∧
      e.col = (if horiz then x + i else fixed)
  | 0, x, i, e, he => by simp [collectRun] at he
  | fuel + 1, x, i, e, he => by
    by_cases hx : x < 15
    · simp only [collectRun] at he
      rw [if_pos hx] at he
      rcases hcell : (tb (if horiz = true then fixed else x)
          (if horiz = true then x else fixed)).tile with _ | t
      · rw [hcell] at he; simp at he
      · rw [hcell] at he
        cases i with
        | zero =>
          rw [List.getElem?_cons_zero, Option.some_inj] at he
          subst he
          cases horiz <;> simp
        | succ j =>
          rw [List.getElem?_cons_succ] at he
          have ih := collectRun_axis tb p fixed horiz fuel (x + 1) j e he
          cases horiz <;> simp only [if_true, if_false, Bool.false_eq_true] at ih ⊢
          · exact ⟨by omega, ih.2⟩
          · exact ⟨ih.1, by omega⟩
    · simp only [collectRun] at he
      rw [if_neg hx] at he
      simp at he

/-- The collection loop stops at column/row 15 or right before an
unoccupied cell. -/
theorem collectRun_end (tb : Board) (p : List PlacedTile) (fixed : Int)
    (horiz : Bool) :
    ∀ (fuel : Nat) (x : Int), 0 ≤ x → x ≤ 15 → (15 - x).toNat ≤ fuel →
      (x + (collectRun tb p fixed horiz fuel x).length = 15 ∨
       occAt tb
         (if horiz then fixed
          else x + (collectRun tb p fixed horiz fuel x).length)
         (if horiz then x + (collectRun tb p fixed horiz fuel x).length
          else fixed) = false)
  | 0, x, h0, h15, hf => by
    have hx : x = 15 := by omega
    subst hx
    simp [collectRun]
  | fuel + 1, x, h0, h15, hf => by
    by_cases hx : x < 15
    · simp only [collectRun]
      rw [if_pos hx]
      rcases hcell : (tb (if horiz = true then fixed else x)
          (if horiz = true then x else fixed)).tile with _ | t
      · right
        cases horiz <;> simp [occAt] <;> simpa using hcell
      · have ih := collectRun_end tb p fixed horiz fuel (x + 1) (by omega)
          (by omega) (by omega)
        simp only [List.length_cons]
        rcases ih with h | h
        · left; push_cast at h ⊢; omega
        · right
          have harith : x + ((collectRun tb p fixed horiz fuel (x + 1)).length + 1 : Nat)
              = x + 1 + ((collectRun tb p fixed horiz fuel (x + 1)).length : Nat) := by
            push_cast; ring
          rw [harith]
          exact h
    · simp only [collectRun]
      rw [if_neg hx]
      left
      have hx15 : x = 15 := by omega
      simp [hx15]

/-- Flattening optional singletons is `filterMap`. -/
theorem flatten_map_toList {α β : Type} (f : α → Option β) :
    ∀ l : List α, (l.map fun a => (f a).toList).flatten = l.filterMap f
  | [] => rfl
  | a :: l => by
    cases h : f a <;>
      simp [List.filterMap_cons, h, flatten_map_toList f l]

/-- With pairwise-distinct keys, none already seen, deduplication is the
identity. -/
theorem dedupByKey_eq_self :
    ∀ (l : List FormedWord) (seen : List (Int × Int × Int × Int)),
      (l.map wordKey).Nodup → (∀ w ∈ l, wordKey w ∉ seen) →
      dedupByKey l seen = l
  | [], _, _, _ => rfl
  | w :: rest, seen, hnd, hseen => by
    simp only [dedupByKey]
    rw [if_neg (hseen w (List.mem_cons_self w rest))]
    simp only [List.map_cons, List.nodup_cons] at hnd
    congr 1
    refine dedupByKey_eq_self rest _ hnd.2 ?_
    intro w' hw'
    simp only [List.mem_cons]
    rintro (h | h)
    · exact hnd.1 (h ▸ List.mem_map_of_mem wordKey hw')
    · exact hseen w' (List.mem_cons_of_mem _ hw') h

/-- `any` is permutation-invariant. -/
theorem any_perm {α : Type} (f : α → Bool) {l1 l2 : List α}
    (h : l1.Perm l2) : l1.any f = l2.any f := by
  cases h1 : l1.any f <;> cases h2 : l2.any f <;> try rfl
  · exfalso
    obtain ⟨x, hx, hfx⟩ := List.any_eq_true.mp h2
    have : l1.any f = true := List.any_eq_true.mpr ⟨x, h.mem_iff.mpr hx, hfx⟩
    rw [h1] at this; exact Bool.noConfusion this
  · exfalso
    obtain ⟨x, hx, hfx⟩ := List.any_eq_true.mp h1
    have : l2.any f = true := List.any_eq_true.mpr ⟨x, h.mem_iff.mp hx, hfx⟩
    rw [h2] at this; exact Bool.noConfusion this

/-- The placed-set test is permutation-invariant. -/
theorem isNewCell_perm {p q : List PlacedTile} (h : p.Perm q) :
    ∀ r c, isNewCell p r c = isNewCell q r c :=
  fun _ _ => any_perm _ h

/-- "All in one row" spelled as a two-sided membership property. -/
theorem allSameRow_pairwise (t0 : PlacedTile) (rest : List PlacedTile) :
    allSameRow (t0 :: rest) = true ↔
      ∀ x ∈ t0 :: rest, ∀ y ∈ t0 :: rest, x.row = y.row := by
  rw [allSameRow_spec]
  constructor
  · intro h x hx y hy
    rw [h x hx, h y hy]
  · intro h t ht
    exact h t ht t0 (List.mem_cons_self t0 rest)

/-- "All in one row" is permutation-invariant. -/
theorem allSameRow_perm {p q : List PlacedTile} (h : p.Perm q) :
    allSameRow p = allSameRow q := by
  match p, q with
  | [], q =>
    rw [h.symm.eq_nil]
  | t0 :: rest, [] =>
    exact absurd h.eq_nil (by simp)
  | t0 :: rest, u0 :: qrest =>
    cases hA : allSameRow (t0 :: rest) <;> cases hB : allSameRow (u0 :: qrest)
    · rfl
    · exfalso
      have hpw := (allSameRow_pairwise u0 qrest).mp hB
      have : allSameRow (t0 :: rest) = true :=
        (allSameRow_pairwise t0 rest).mpr fun x hx y hy =>
          hpw x (h.mem_iff.mp hx) y (h.mem_iff.mp hy)
      rw [hA] at this; exact Bool.noConfusion this
    · exfalso
      have hpw := (allSameRow_pairwise t0 rest).mp hA
      have : allSameRow (u0 :: qrest) = true :=
        (allSameRow_pairwise u0 qrest).mpr fun x hx y hy =>
          hpw x (h.mem_iff.mpr hx) y (h.mem_iff.mpr hy)
      rw [hB] at this; exact Bool.noConfusion this
    · rfl

/-- Board assignments at different cells (or of the same tile) commute. -/
theorem setTileAt_comm (bd : Board) (x y : PlacedTile)
    (h : x = y ∨ (x.row, x.col) ≠ (y.row, y.col)) :
    setTileAt (setTileAt bd x) y = setTileAt (setTileAt bd y) x := by
  rcases h with rfl | hne
  · rfl
  · funext r c
    simp only [setTileAt]
    cases hb1 : (r == x.row && c == x.col) <;>
      cases hb2 : (r == y.row && c == y.col) <;> simp [hb1, hb2]
    exfalso
    apply hne
    rw [Bool.and_eq_true] at hb1 hb2
    simp only [beq_iff_eq] at hb1 hb2
    rw [Prod.ext_iff]
    exact ⟨hb1.1 ▸ hb2.1, hb1.2 ▸ hb2.2⟩

/-- With pairwise-distinct coordinates the scratch board is independent of
the order the candidate tiles are applied in. -/
theorem tempBoardOf_perm (b : Board) {p q : List PlacedTile} (h : p.Perm q)
    (hnd : (p.map fun t => (t.row, t.col)).Nodup) :
    tempBoardOf b p = tempBoardOf b q := by
  refine h.foldl_eq' ?_ b
  intro x hx y hy z
  by_cases hxy : x = y
  · subst hxy; rfl
  · refine setTileAt_comm z x y (Or.inr ?_)
    intro hco
    exact hxy (List.inj_on_of_nodup_map hnd hx hy hco)

/-- An accepted placement lies in a single row or a single column. -/
theorem valid_line (b : Board) (p : List PlacedTile) (f : Bool)
    (h : validatePlacement b p f = VResult.valid) :
    allSameRow p = true ∨ allSameCol p = true := by
  match p with
  | [] => exact absurd h (by simp [validatePlacement])
  | t0 :: rest =>
    by_contra hc
    push_neg at hc
    obtain ⟨hr, hcl⟩ := hc
    replace hr := Bool.eq_false_iff.mpr hr
    replace hcl := Bool.eq_false_iff.mpr hcl
    simp only [validatePlacement, hr, hcl, Bool.not_false, Bool.and_self,
      if_true] at h
    exact absurd h (by simp)

/-- An accepted placement passed the gap scan of its axis. -/
theorem valid_gap_false (b : Board) (t0 : PlacedTile) (rest : List PlacedTile)
    (f : Bool) (hval : validatePlacement b (t0 :: rest) f = VResult.valid) :
    (allSameRow (t0 :: rest) = true →
      rowGapScan b (t0 :: rest) t0.row = false) ∧
    (allSameRow (t0 :: rest) = false →
      colGapScan b (t0 :: rest) t0.col = false) := by
  have hc := valid_checkCells b (t0 :: rest) f hval
  simp only [validatePlacement, hc] at hval
  constructor
  · intro hsr
    cases hscan : rowGapScan b (t0 :: rest) t0.row
    · rfl
    · exfalso
      rw [hsr, hscan] at hval
      simp only [Bool.not_true, Bool.not_false, Bool.false_and, Bool.true_and,
        eq_self_iff_true, if_true, if_false, Bool.false_eq_true] at hval
      iterate 5 all_goals try split at hval
      all_goals exact VResult.noConfusion hval
  · intro hsr
    cases hscan : colGapScan b (t0 :: rest) t0.col
    · rfl
    · exfalso
      rw [hsr, hscan] at hval
      simp only [Bool.not_true, Bool.not_false, Bool.false_and, Bool.true_and,
        eq_self_iff_true, if_true, if_false, Bool.false_eq_true] at hval
      iterate 5 all_goals try split at hval
      all_goals exact VResult.noConfusion hval

/-- Folding `+ f w` over a list is the seed plus the sum of the images. -/
theorem foldl_add_map (f : FormedWord → Int) :
    ∀ (l : List FormedWord) (a : Int),
      l.foldl (fun acc w => acc + f w) a = a + (l.map f).sum
  | [], a => by simp
  | w :: rest, a => by
    rw [List.foldl_cons, foldl_add_map f rest (a + f w)]
    simp [add_assoc]

/-- The concatenated word is at least as long as its entry count when no
entry letter is empty. -/
theorem word_length_ge :
    ∀ (l : List WordTile) (init : String), (∀ e ∈ l, e.letter ≠ "") →
      init.length + l.length ≤ (l.foldl (fun acc e => acc ++ e.letter) init).length
  | [], init, _ => by simp
  | e :: rest, init, h => by
    have h1 := word_length_ge rest (init ++ e.letter)
      (fun e' he' => h e' (List.mem_cons_of_mem _ he'))
    rw [List.foldl_cons]
    have h2 : 1 ≤ e.letter.length := by
      have hne := h e (List.mem_cons_self e rest)
      rcases Nat.eq_zero_or_pos e.letter.length with hl | hl
      · have hd : e.letter.data = [] := List.length_eq_zero.mp hl
        exact absurd (String.ext (by rw [hd])) hne
      · exact hl
    simp only [String.length_append] at h1
    simp only [List.length_cons]
    omega

/-- Every entry collected by `collectRun` has a nonempty letter. -/
theorem collectRun_letter_ne (tb : Board) (p : List PlacedTile)
    (fixed : Int) (horiz : Bool) :
    ∀ (fuel : Nat) (x : Int), ∀ e ∈ collectRun tb p fixed horiz fuel x,
      e.letter ≠ ""
  | 0, x => by simp [collectRun]
  | fuel + 1, x => by
    intro e he
    simp only [collectRun] at he
    split at he
    · rcases hcell : (tb (if horiz = true then fixed else x)
          (if horiz = true then x else fixed)).tile with _ | t
      · rw [hcell] at he; simp at he
      · rw [hcell] at he
        rcases List.mem_cons.mp he with h1 | h2
        · subst h1
          by_cases hl : t.letter = "" <;> simp [hl]
        · exact collectRun_letter_ne tb p fixed horiz fuel (x + 1) e h2
    · simp at he

/-- Every entry of a vertical collection shares the fixed column; of a
horizontal one, the fixed row. -/
theorem collectRun_fixed (tb : Board) (p : List PlacedTile)
    (fixed : Int) (horiz : Bool) :
    ∀ (fuel : Nat) (x : Int), ∀ e ∈ collectRun tb p fixed horiz fuel x,
      (if horiz then e.row else e.col) = fixed
  | 0, x => by simp [collectRun]
  | fuel + 1, x => by
    intro e he
    simp only [collectRun] at he
    split at he
    · rcases hcell : (tb (if horiz = true then fixed else x)
          (if horiz = true then x else fixed)).tile with _ | t
      · rw [hcell] at he; simp at he
      · rw [hcell] at he
        rcases List.mem_cons.mp he with h1 | h2
        · subst h1
          cases horiz <;> simp
        · exact collectRun_fixed tb p fixed horiz fuel (x + 1) e h2
    · simp at he

/-- "All in one column" spelled as a two-sided membership property. -/
theorem allSameCol_pairwise (t0 : PlacedTile) (rest : List PlacedTile) :
    allSameCol (t0 :: rest) = true ↔
      ∀ x ∈ t0 :: rest, ∀ y ∈ t0 :: rest, x.col = y.col := by
  rw [allSameCol_spec]
  constructor
  · intro h x hx y hy
    rw [h x hx, h y hy]
  · intro h t ht
    exact h t ht t0 (List.mem_cons_self t0 rest)

/-- `allSameCol` is invariant under permutation of the placement. -/
theorem allSameCol_perm {p q : List PlacedTile} (h : p.Perm q) :
    allSameCol p = allSameCol q := by
  match p, q with
  | [], q =>
    rw [h.symm.eq_nil]
  | t0 :: rest, [] =>
    exact absurd h.eq_nil (by simp)
  | t0 :: rest, u0 :: qrest =>
    cases hA : allSameCol (t0 :: rest) <;> cases hB : allSameCol (u0 :: qrest)
    · rfl
    · exfalso
      have hpw := (allSameCol_pairwise u0 qrest).mp hB
      have : allSameCol (t0 :: rest) = true :=
        (allSameCol_pairwise t0 rest).mpr fun x hx y hy =>
          hpw x (h.mem_iff.mp hx) y (h.mem_iff.mp hy)
      rw [hA] at this; exact Bool.noConfusion this
    · exfalso
      have hpw := (allSameCol_pairwise t0 rest).mp hA
      have : allSameCol (u0 :: qrest) = true :=
        (allSameCol_pairwise u0 qrest).mpr fun x hx y hy =>
          hpw x (h.mem_iff.mpr hx) y (h.mem_iff.mpr hy)
      rw [hB] at this; exact Bool.noConfusion this
    · rfl

/-- `getLast?` of a cons, expressed through the tail's `getLast?`. -/
theorem getLast_cons_eq :
    ∀ (rs : List WordTile) (r : WordTile),
      (r :: rs).getLast? = some ((rs.getLast?).getD r)
  | [], r => by simp
  | x :: xs, r => by
    have ih := getLast_cons_eq xs x
    rw [List.getLast?_cons_cons, ih]
    simp

/-- The defaulted last element of a cons sits at index `rest.length`. -/
theorem cons_getElem_length :
    ∀ (rest : List WordTile) (e : WordTile),
      (e :: rest)[rest.length]? = some ((rest.getLast?).getD e)
  | [], e => rfl
  | r :: rs, e => by
    have ih := cons_getElem_length rs r
    simp only [List.length_cons, List.getElem?_cons_succ, ih,
      getLast_cons_eq rs r, Option.getD_some]

/-- The defaulted last element of a cons is a member of it. -/
theorem getLastD_mem :
    ∀ (rest : List WordTile) (e : WordTile),
      (rest.getLast?).getD e ∈ e :: rest
  | [], e => by simp
  | r :: rs, e => by
    rw [getLast_cons_eq rs r]
    simp only [Option.getD_some]
    exact List.mem_cons_of_mem e (getLastD_mem rs r)

/-- `wordKey` read off the indexed first and last entries. -/
theorem wordKey_getElem (w : FormedWord) (first last : WordTile)
    (h0 : w.tiles[0]? = some first)
    (hl : w.tiles[w.tiles.length - 1]? = some last) :
    wordKey w = (first.row, first.col, last.row, last.col) := by
  match hw : w.tiles with
  | [] => rw [hw] at h0; simp at h0
  | e :: rest =>
    rw [hw] at h0 hl
    simp only [List.getElem?_cons_zero, Option.some_inj] at h0
    have hlen : (e :: rest).length - 1 = rest.length := by simp
    rw [hlen, cons_getElem_length rest e, Option.some_inj] at hl
    simp only [wordKey, hw]
    rw [hl, h0]

/-- Both endpoint entries used by `wordKey` are members of the tile list. -/
theorem wordKey_endpoints_mem (w : FormedWord) (e : WordTile)
    (rest : List WordTile) (hw : w.tiles = e :: rest) :
    e ∈ w.tiles ∧ (rest.getLast?).getD e ∈ w.tiles := by
  rw [hw]
  exact ⟨List.mem_cons_self e rest, getLastD_mem rest e⟩

/-- A start strictly below the span start would leave the cell just before
the walk's stop occupied, contradicting the stop condition. -/
theorem walkBack_le (occ : Int → Bool) (A B c : Int) (hA : 0 ≤ A)
    (hc1 : A ≤ c) (hc2 : c ≤ B) (hB : B ≤ 14)
    (hspan : ∀ x, A ≤ x → x ≤ B → occ x = true) :
    walkBack occ 15 c ≤ A := by
  obtain ⟨hpos, hle, hocc, hstop⟩ := walkBack_spec occ 15 c (by omega) (by omega)
  by_contra hgt
  push_neg at hgt
  rcases hstop with h0 | hfalse
  · omega
  · have := hspan (walkBack occ 15 c - 1) (by omega) (by omega)
    rw [this] at hfalse
    exact Bool.noConfusion hfalse

/-- The horizontal main run launched from any column inside an occupied
span reaches past the right end of the span. -/
theorem run_covers_row (tb : Board) (p : List PlacedTile) (r0 c A B : Int)
    (hA : 0 ≤ A) (hB : B ≤ 14) (hc1 : A ≤ c) (hc2 : c ≤ B)
    (hspan : ∀ x, A ≤ x → x ≤ B → occAt tb r0 x = true) :
    B < walkBack (fun x => occAt tb r0 x) 15 c +
      (collectRun tb p r0 true 15
        (walkBack (fun x => occAt tb r0 x) 15 c)).length := by
  obtain ⟨hpos, hle, hoccg, hstop⟩ :=
    walkBack_spec (fun x => occAt tb r0 x) 15 c (by omega) (by omega)
  set s := walkBack (fun x => occAt tb r0 x) 15 c with hs
  have hsA : s ≤ A := walkBack_le _ A B c hA hc1 hc2 hB hspan
  by_contra hlt
  push_neg at hlt
  set len := (collectRun tb p r0 true 15 s).length with hlen
  have hend := collectRun_end tb p r0 true 15 s (by omega) (by omega) (by omega)
  rcases hend with h15 | hunocc
  · omega
  · have hxocc : occAt tb r0 (s + len) = true := by
      by_cases hxa : A ≤ s + len
      · exact hspan _ hxa (by omega)
      · exact hoccg _ (by omega) (by omega)
    simp only [if_true, eq_self_iff_true] at hunocc
    rw [hxocc] at hunocc
    exact Bool.noConfusion hunocc

/-- The vertical main run launched from any row inside an occupied span
reaches past the bottom end of the span. -/
theorem run_covers_col (tb : Board) (p : List PlacedTile) (c0 r A B : Int)
    (hA : 0 ≤ A) (hB : B ≤ 14) (hc1 : A ≤ r) (hc2 : r ≤ B)
    (hspan : ∀ x, A ≤ x → x ≤ B → occAt tb x c0 = true) :
    B < walkBack (fun x => occAt tb x c0) 15 r +
      (collectRun tb p c0 false 15
        (walkBack (fun x => occAt tb x c0) 15 r)).length := by
  obtain ⟨hpos, hle, hoccg, hstop⟩ :=
    walkBack_spec (fun x => occAt tb x c0) 15 r (by omega) (by omega)
  set s := walkBack (fun x => occAt tb x c0) 15 r with hs
  have hsA : s ≤ A := walkBack_le _ A B r hA hc1 hc2 hB hspan
  by_contra hlt
  push_neg at hlt
  set len := (collectRun tb p c0 false 15 s).length with hlen
  have hend := collectRun_end tb p c0 false 15 s (by omega) (by omega) (by omega)
  rcases hend with h15 | hunocc
  · omega
  · have hxocc : occAt tb (s + len) c0 = true := by
      by_cases hxa : A ≤ s + len
      · exact hspan _ hxa (by omega)
      · exact hoccg _ (by omega) (by omega)
    simp only [Bool.false_eq_true, if_false] at hunocc
    rw [hxocc] at hunocc
    exact Bool.noConfusion hunocc

/-- `wordAt` returns the collected run whenever it has at least two
entries (every entry contributes at least one letter). -/
theorem wordAt_eq_some (tb : Board) (p : List PlacedTile) (sr sc : Int)
    (horiz : Bool) (hlen : 2 ≤ (mainRun tb p sr sc horiz).length) :
    wordAt tb p sr sc horiz = some
      { word := (mainRun tb p sr sc horiz).foldl
          (fun acc e => acc ++ e.letter) "",
        tiles := mainRun tb p sr sc horiz } := by
  simp only [wordAt, mainRun] at hlen ⊢
  rw [if_pos]
  have h1 := word_length_ge _ "" (collectRun_letter_ne tb p
    (if horiz = true then sr else sc) horiz 15
    (walkBack (fun x => if horiz = true then occAt tb sr x else occAt tb x sc)
      15 (if horiz = true then sc else sr)))
  simp only [String.length] at h1 ⊢
  omega

/-- The horizontal main run, with the direction tests reduced. -/
theorem mainRun_row (tb : Board) (p : List PlacedTile) (sr sc : Int) :
    mainRun tb p sr sc true =
      collectRun tb p sr true 15 (walkBack (fun x => occAt tb sr x) 15 sc) := by
  simp only [mainRun, if_true, eq_self_iff_true]

/-- The vertical main run, with the direction tests reduced. -/
theorem mainRun_col (tb : Board) (p : List PlacedTile) (sr sc : Int) :
    mainRun tb p sr sc false =
      collectRun tb p sc false 15 (walkBack (fun x => occAt tb x sc) 15 sr) := by
  simp only [mainRun, Bool.false_eq_true, if_false]

/-- Two horizontal `wordAt` launches from the same row and any two columns
inside one occupied span return the same word, even for different
placements with the same new-cell predicate. -/
theorem wordAt_row_eq (tb : Board) (p q : List PlacedTile)
    (hn : ∀ r c, isNewCell p r c = isNewCell q r c)
    (r0 c1 c2 A B : Int) (hA : 0 ≤ A) (hB : B ≤ 14)
    (h1 : A ≤ c1) (h1' : c1 ≤ B) (h2 : A ≤ c2) (h2' : c2 ≤ B)
    (hspan : ∀ x, A ≤ x → x ≤ B → occAt tb r0 x = true) :
    wordAt tb p r0 c1 true = wordAt tb q r0 c2 true := by
  simp only [wordAt, if_true, eq_self_iff_true]
  have hw : walkBack (fun x => occAt tb r0 x) 15 c1 =
      walkBack (fun x => occAt tb r0 x) 15 c2 :=
    walkBack_unique _ A c1 c2 hA h1 h2 (by omega) (by omega)
      (fun x hx hx' => hspan x hx (by omega))
      (fun x hx hx' => hspan x hx (by omega))
  rw [hw, collectRun_congr tb tb p q r0 true (fun _ _ => rfl) hn]

/-- Two vertical `wordAt` launches from the same column and any two rows
inside one occupied span return the same word. -/
theorem wordAt_col_eq (tb : Board) (p q : List PlacedTile)
    (hn : ∀ r c, isNewCell p r c = isNewCell q r c)
    (c0 r1 r2 A B : Int) (hA : 0 ≤ A) (hB : B ≤ 14)
    (h1 : A ≤ r1) (h1' : r1 ≤ B) (h2 : A ≤ r2) (h2' : r2 ≤ B)
    (hspan : ∀ x, A ≤ x → x ≤ B → occAt tb x c0 = true) :
    wordAt tb p r1 c0 false = wordAt tb q r2 c0 false := by
  simp only [wordAt, Bool.false_eq_true, if_false]
  have hw : walkBack (fun x => occAt tb x c0) 15 r1 =
      walkBack (fun x => occAt tb x c0) 15 r2 :=
    walkBack_unique _ A r1 r2 hA h1 h2 (by omega) (by omega)
      (fun x hx hx' => hspan x hx (by omega))
      (fun x hx hx' => hspan x hx (by omega))
  rw [hw, collectRun_congr tb tb p q c0 false (fun _ _ => rfl) hn]

/-- A word returned by `wordAt` has a nonempty tile list, and every entry
sits on the launch row (horizontal) resp. launch column (vertical). -/
theorem wordAt_tiles_fixed (tb : Board) (p : List PlacedTile) (sr sc : Int)
    (horiz : Bool) (w : FormedWord) (h : wordAt tb p sr sc horiz = some w) :
    w.tiles ≠ [] ∧
      ∀ e ∈ w.tiles, (if horiz then e.row else e.col) =
        (if horiz then sr else sc) := by
  revert h
  simp only [wordAt]
  intro h
  split at h
  · rename_i hcond
    subst hcond
    split at h
    · rename_i h2
      have hw : w.tiles = collectRun tb p sr true 15
          (walkBack (fun x => occAt tb sr x) 15 sc) := by
        rw [Option.some_inj] at h
        rw [← h]
      refine ⟨?_, ?_⟩
      · intro hnil
        rw [hw] at hnil
        rw [hnil] at h2
        simp at h2
      · intro e he
        rw [hw] at he
        simpa using collectRun_fixed tb p sr true 15 _ e he
    · exact Option.noConfusion h
  · rename_i hcond
    have hf : horiz = false := by
      cases horiz
      · rfl
      · exact absurd rfl hcond
    subst hf
    split at h
    · rename_i h2
      have hw : w.tiles = collectRun tb p sc false 15
          (walkBack (fun x => occAt tb x sc) 15 sr) := by
        rw [Option.some_inj] at h
        rw [← h]
      refine ⟨?_, ?_⟩
      · intro hnil
        rw [hw] at hnil
        rw [hnil] at h2
        simp at h2
      · intro e he
        rw [hw] at he
        simpa using collectRun_fixed tb p sc false 15 _ e he
    · exact Option.noConfusion h

/-- The dedup key of a vertical word carries its fixed column in both
column components. -/
theorem crossKey_col (tb : Board) (p : List PlacedTile) (sr sc : Int)
    (w : FormedWord) (h : wordAt tb p sr sc false = some w) :
    (wordKey w).2.1 = sc ∧ (wordKey w).2.2.2 = sc := by
  obtain ⟨hne, hfix⟩ := wordAt_tiles_fixed tb p sr sc false w h
  match hw : w.tiles with
  | [] => exact absurd hw hne
  | e :: rest =>
    obtain ⟨hmem1, hmem2⟩ := wordKey_endpoints_mem w e rest hw
    have h1 := hfix e hmem1
    have h2 := hfix _ hmem2
    simp only [Bool.false_eq_true, if_false] at h1 h2
    simp only [wordKey, hw]
    exact ⟨h1, h2⟩

/-- The dedup key of a horizontal word carries its fixed row in both row
components. -/
theorem crossKey_row (tb : Board) (p : List PlacedTile) (sr sc : Int)
    (w : FormedWord) (h : wordAt tb p sr sc true = some w) :
    (wordKey w).1 = sr ∧ (wordKey w).2.2.1 = sr := by
  obtain ⟨hne, hfix⟩ := wordAt_tiles_fixed tb p sr sc true w h
  match hw : w.tiles with
  | [] => exact absurd hw hne
  | e :: rest =>
    obtain ⟨hmem1, hmem2⟩ := wordKey_endpoints_mem w e rest hw
    have h1 := hfix e hmem1
    have h2 := hfix _ hmem2
    simp only [if_true, eq_self_iff_true] at h1 h2
    simp only [wordKey, hw]
    exact ⟨h1, h2⟩

/-- The column minimum is attained by some placed tile. -/
theorem minColOf_mem (t0 : PlacedTile) (rest : List PlacedTile) :
    ∃ t ∈ t0 :: rest, minColOf (t0 :: rest) = t.col := by
  rcases foldl_min_attained (fun t => t.col) rest t0.col with h | ⟨t, ht, hh⟩
  · exact ⟨t0, List.mem_cons_self t0 rest, h⟩
  · exact ⟨t, List.mem_cons_of_mem _ ht, hh⟩

/-- The column maximum is attained by some placed tile. -/
theorem maxColOf_mem (t0 : PlacedTile) (rest : List PlacedTile) :
    ∃ t ∈ t0 :: rest, maxColOf (t0 :: rest) = t.col := by
  rcases foldl_max_attained (fun t => t.col) rest t0.col with h | ⟨t, ht, hh⟩
  · exact ⟨t0, List.mem_cons_self t0 rest, h⟩
  · exact ⟨t, List.mem_cons_of_mem _ ht, hh⟩

/-- The row minimum is attained by some placed tile. -/
theorem minRowOf_mem (t0 : PlacedTile) (rest : List PlacedTile) :
    ∃ t ∈ t0 :: rest, minRowOf (t0 :: rest) = t.row := by
  rcases foldl_min_attained (fun t => t.row) rest t0.row with h | ⟨t, ht, hh⟩
  · exact ⟨t0, List.mem_cons_self t0 rest, h⟩
  · exact ⟨t, List.mem_cons_of_mem _ ht, hh⟩

/-- The row maximum is attained by some placed tile. -/
theorem maxRowOf_mem (t0 : PlacedTile) (rest : List PlacedTile) :
    ∃ t ∈ t0 :: rest, maxRowOf (t0 :: rest) = t.row := by
  rcases foldl_max_attained (fun t => t.row) rest t0.row with h | ⟨t, ht, hh⟩
  · exact ⟨t0, List.mem_cons_self t0 rest, h⟩
  · exact ⟨t, List.mem_cons_of_mem _ ht, hh⟩

/-- Scoring a same-row placement (two or more tiles, distinct coordinates,
free in-bounds cells, no gaps) is invariant under reordering the tiles. -/
theorem score_perm_row (b : Board) (t0 : PlacedTile) (rest : List PlacedTile)
    (q : List PlacedTile) (hperm : (t0 :: rest).Perm q)
    (hnd : ((t0 :: rest).map fun t => (t.row, t.col)).Nodup)
    (hrest : rest ≠ [])
    (hsr : allSameRow (t0 :: rest) = true)
    (hcells : checkCells b (t0 :: rest) = Option.none)
    (hnogap : rowGapScan b (t0 :: rest) t0.row = false) :
    calculateScore b (t0 :: rest) = calculateScore b q := by
  cases q with
  | nil => exact absurd hperm.eq_nil (by simp)
  | cons u0 qrest =>
  have hfacts := checkCells_none_facts b (t0 :: rest) hcells
  have hrowall := (allSameRow_spec t0 rest).mp hsr
  have hA0 : 0 ≤ minColOf (t0 :: rest) := by
    obtain ⟨t, ht, heq⟩ := minColOf_mem t0 rest
    rw [heq]
    exact (hfacts t ht).1.2.2.1
  have hB14 : maxColOf (t0 :: rest) ≤ 14 := by
    obtain ⟨t, ht, heq⟩ := maxColOf_mem t0 rest
    rw [heq]
    exact (hfacts t ht).1.2.2.2
  have hAB : minColOf (t0 :: rest) < maxColOf (t0 :: rest) := by
    cases rest with
    | nil => exact absurd rfl hrest
    | cons t1 rest' =>
      have hb0 := col_bounds t0 (t1 :: rest') t0 (List.mem_cons_self _ _)
      have hb1 := col_bounds t0 (t1 :: rest') t1
        (List.mem_cons_of_mem _ (List.mem_cons_self _ _))
      have hco : t0.col ≠ t1.col := by
        intro hc
        have hrow : t1.row = t0.row :=
          hrowall t1 (List.mem_cons_of_mem _ (List.mem_cons_self _ _))
        simp only [List.map_cons, List.nodup_cons] at hnd
        apply hnd.1
        rw [List.mem_cons]
        left
        rw [hrow, ← hc]
      omega
  have hspan : ∀ x, minColOf (t0 :: rest) ≤ x → x ≤ maxColOf (t0 :: rest) →
      occAt (tempBoardOf b (t0 :: rest)) t0.row x = true := by
    intro x hx1 hx2
    by_cases hplaced : ∃ t ∈ t0 :: rest, t.col = x
    · obtain ⟨t, ht, hcol⟩ := hplaced
      have hrow : t.row = t0.row := hrowall t ht
      have hp := occAt_fold_placed (t0 :: rest) b t ht
      rw [hrow, hcol] at hp
      exact hp
    · push_neg at hplaced
      by_cases hocc : (b t0.row x).tile = Option.none
      · exfalso
        have hgap : rowGapScan b (t0 :: rest) t0.row = true :=
          (rowGapScan_iff b t0 rest t0.row).mpr ⟨x, hx1, hx2, hplaced, hocc⟩
        rw [hnogap] at hgap
        exact Bool.noConfusion hgap
      · refine occAt_fold_mono (t0 :: rest) b t0.row x ?_
        simp only [occAt]
        exact Option.isSome_iff_ne_none.mpr hocc
  have hnew : ∀ r c, isNewCell (t0 :: rest) r c = isNewCell (u0 :: qrest) r c :=
    isNewCell_perm hperm
  have htbq : tempBoardOf b (u0 :: qrest) = tempBoardOf b (t0 :: rest) :=
    (tempBoardOf_perm b hperm hnd).symm
  have hsrq : allSameRow (u0 :: qrest) = true := by
    rw [← allSameRow_perm hperm]
    exact hsr
  have hu0mem : u0 ∈ t0 :: rest := hperm.mem_iff.mpr (List.mem_cons_self _ _)
  have hu0row : u0.row = t0.row := hrowall u0 hu0mem
  have hu0b := col_bounds t0 rest u0 hu0mem
  have ht0b := col_bounds t0 rest t0 (List.mem_cons_self _ _)
  have hlen2 : 2 ≤ (t0 :: rest).length := by
    cases rest with
    | nil => exact absurd rfl hrest
    | cons _ _ => simp only [List.length_cons]; omega
  have hlenq : (u0 :: qrest).length = (t0 :: rest).length := hperm.length_eq.symm
  have honep : ((t0 :: rest).length == 1) = false := by
    rw [beq_eq_false_iff_ne]
    omega
  have honeq : ((u0 :: qrest).length == 1) = false := by
    rw [beq_eq_false_iff_ne, hlenq]
    omega
  have hmain : wordAt (tempBoardOf b (t0 :: rest)) (t0 :: rest) t0.row t0.col true =
      wordAt (tempBoardOf b (t0 :: rest)) (u0 :: qrest) u0.row u0.col true := by
    rw [hu0row]
    exact wordAt_row_eq _ _ _ hnew t0.row t0.col u0.col _ _ hA0 hB14
      ht0b.1 ht0b.2 hu0b.1 hu0b.2 hspan
  have hsA : walkBack (fun x => occAt (tempBoardOf b (t0 :: rest)) t0.row x)
      15 t0.col ≤ minColOf (t0 :: rest) :=
    walkBack_le _ _ _ t0.col hA0 ht0b.1 ht0b.2 hB14 hspan
  have hcover := run_covers_row (tempBoardOf b (t0 :: rest)) (t0 :: rest)
    t0.row t0.col (minColOf (t0 :: rest)) (maxColOf (t0 :: rest))
    hA0 hB14 ht0b.1 ht0b.2 hspan
  have hrun2 : 2 ≤ (mainRun (tempBoardOf b (t0 :: rest)) (t0 :: rest)
      t0.row t0.col true).length := by
    rw [mainRun_row]
    omega
  have hMform := wordAt_eq_some (tempBoardOf b (t0 :: rest)) (t0 :: rest)
    t0.row t0.col true hrun2
  obtain ⟨M, hM, hMtiles⟩ : ∃ M,
      wordAt (tempBoardOf b (t0 :: rest)) (t0 :: rest) t0.row t0.col true =
        some M ∧
      M.tiles = collectRun (tempBoardOf b (t0 :: rest)) (t0 :: rest) t0.row
        true 15
        (walkBack (fun x => occAt (tempBoardOf b (t0 :: rest)) t0.row x)
          15 t0.col) := by
    refine ⟨_, hMform, ?_⟩
    simp only [mainRun_row]
  have hlM : 2 ≤ M.tiles.length := by
    rw [hMtiles]
    rw [mainRun_row] at hrun2
    exact hrun2
  obtain ⟨e0, h0⟩ : ∃ e, M.tiles[0]? = some e :=
    ⟨_, List.getElem?_eq_getElem (by omega)⟩
  obtain ⟨eN, hN⟩ : ∃ e, M.tiles[M.tiles.length - 1]? = some e :=
    ⟨_, List.getElem?_eq_getElem (by omega)⟩
  have hkey0 := wordKey_getElem M e0 eN h0 hN
  have ha0 := collectRun_axis (tempBoardOf b (t0 :: rest)) (t0 :: rest)
    t0.row true 15 _ 0 e0 (by rw [← hMtiles]; exact h0)
  have haN := collectRun_axis (tempBoardOf b (t0 :: rest)) (t0 :: rest)
    t0.row true 15 _ (M.tiles.length - 1) eN (by rw [← hMtiles]; exact hN)
  have hMkey_comp : (wordKey M).2.1 ≠ (wordKey M).2.2.2 := by
    rw [hkey0]
    show e0.col ≠ eN.col
    have h1 := ha0.2
    have h2 := haN.2
    simp only [if_true, eq_self_iff_true] at h1 h2
    omega
  have hMnotin : ∀ t ∈ t0 :: rest, ∀ w : FormedWord,
      wordAt (tempBoardOf b (t0 :: rest)) (t0 :: rest) t.row t.col false =
        some w →
      wordKey M ≠ wordKey w := by
    intro t ht w hw heq
    have k := crossKey_col _ _ _ _ w hw
    apply hMkey_comp
    rw [heq, k.1, k.2]
  have hpwcol : (t0 :: rest).Pairwise (fun t u => t.col ≠ u.col) := by
    have hnd' : (t0 :: rest).Pairwise
        (fun a c => (a.row, a.col) ≠ (c.row, c.col)) := List.pairwise_map.mp hnd
    refine hnd'.imp_of_mem ?_
    intro a c ha hc hne' hceq
    apply hne'
    rw [Prod.mk.injEq]
    exact ⟨by rw [hrowall a ha, hrowall c hc], hceq⟩
  have hcrossnd : ((t0 :: rest).filterMap fun t =>
      wordAt (tempBoardOf b (t0 :: rest)) (t0 :: rest) t.row t.col false).Pairwise
      (fun w1 w2 => wordKey w1 ≠ wordKey w2) := by
    refine List.Pairwise.filterMap _ ?_ hpwcol
    intro a c hne w hw w' hw' heq
    rw [Option.mem_def] at hw hw'
    have k1 := crossKey_col _ _ _ _ w hw
    have k2 := crossKey_col _ _ _ _ w' hw'
    apply hne
    have hc2 : (wordKey w).2.1 = (wordKey w').2.1 := by rw [heq]
    rw [k1.1, k2.1] at hc2
    exact hc2
  have hdecomp_p : getFormedWords b (t0 :: rest) =
      M :: ((t0 :: rest).filterMap fun t =>
        wordAt (tempBoardOf b (t0 :: rest)) (t0 :: rest) t.row t.col false) := by
    simp only [getFormedWords, hsr, honep, Bool.true_or, Bool.not_true,
      Bool.false_or, eq_self_iff_true, if_true, Bool.false_eq_true, if_false,
      List.append_nil]
    rw [flatten_map_toList (fun t =>
      wordAt (tempBoardOf b (t0 :: rest)) (t0 :: rest) t.row t.col false)
      (t0 :: rest)]
    rw [hM]
    simp only [Option.toList_some, List.singleton_append]
    refine dedupByKey_eq_self _ [] ?_ (by simp)
    simp only [List.map_cons, List.nodup_cons]
    constructor
    · intro hmem
      rw [List.mem_map] at hmem
      obtain ⟨w, hw, hkeyeq⟩ := hmem
      rw [List.mem_filterMap] at hw
      obtain ⟨t, ht, hwa⟩ := hw
      exact hMnotin t ht w hwa hkeyeq.symm
    · exact List.pairwise_map.mpr hcrossnd
  have hvert_eq : ∀ t : PlacedTile,
      wordAt (tempBoardOf b (t0 :: rest)) (u0 :: qrest) t.row t.col false =
      wordAt (tempBoardOf b (t0 :: rest)) (t0 :: rest) t.row t.col false :=
    fun t => wordAt_congr _ _ _ _ t.row t.col false (fun _ _ => rfl)
      (fun r c => (hnew r c).symm)
  have hcrossq_eq : ((u0 :: qrest).filterMap fun t =>
      wordAt (tempBoardOf b (t0 :: rest)) (u0 :: qrest) t.row t.col false) =
      ((u0 :: qrest).filterMap fun t =>
        wordAt (tempBoardOf b (t0 :: rest)) (t0 :: rest) t.row t.col false) :=
    List.filterMap_congr (fun t _ => hvert_eq t)
  have hcrossq_perm : ((t0 :: rest).filterMap fun t =>
      wordAt (tempBoardOf b (t0 :: rest)) (t0 :: rest) t.row t.col false).Perm
      ((u0 :: qrest).filterMap fun t =>
        wordAt (tempBoardOf b (t0 :: rest)) (t0 :: rest) t.row t.col false) :=
    hperm.filterMap _
  have hdecomp_q : getFormedWords b (u0 :: qrest) =
      M :: ((u0 :: qrest).filterMap fun t =>
        wordAt (tempBoardOf b (t0 :: rest)) (t0 :: rest) t.row t.col false) := by
    simp only [getFormedWords, hsrq, honeq, Bool.true_or, Bool.not_true,
      Bool.false_or, eq_self_iff_true, if_true, Bool.false_eq_true, if_false,
      List.append_nil, htbq]
    rw [flatten_map_toList (fun t =>
      wordAt (tempBoardOf b (t0 :: rest)) (u0 :: qrest) t.row t.col false)
      (u0 :: qrest)]
    rw [hcrossq_eq, ← hmain, hM]
    simp only [Option.toList_some, List.singleton_append]
    refine dedupByKey_eq_self _ [] ?_ (by simp)
    simp only [List.map_cons, List.nodup_cons]
    constructor
    · intro hmem
      rw [List.mem_map] at hmem
      obtain ⟨w, hw, hkeyeq⟩ := hmem
      rw [List.mem_filterMap] at hw
      obtain ⟨t, ht, hwa⟩ := hw
      exact hMnotin t (hperm.mem_iff.mpr ht) w hwa hkeyeq.symm
    · exact ((hcrossq_perm.map wordKey).nodup_iff).mp
        (List.pairwise_map.mpr hcrossnd)
  have hsum : (((t0 :: rest).filterMap fun t =>
      wordAt (tempBoardOf b (t0 :: rest)) (t0 :: rest) t.row t.col false).map
        (scoreWord b)).sum =
      (((u0 :: qrest).filterMap fun t =>
        wordAt (tempBoardOf b (t0 :: rest)) (t0 :: rest) t.row t.col false).map
        (scoreWord b)).sum :=
    (hcrossq_perm.map (scoreWord b)).sum_eq
  simp only [calculateScore, hdecomp_p, hdecomp_q, foldl_add_map,
    List.map_cons, List.sum_cons, hlenq]
  rw [hsum]

/-- Scoring a same-column placement (two or more tiles, distinct
coordinates, free in-bounds cells, no gaps) is invariant under reordering
the tiles. -/
theorem score_perm_col (b : Board) (t0 : PlacedTile) (rest : List PlacedTile)
    (q : List PlacedTile) (hperm : (t0 :: rest).Perm q)
    (hnd : ((t0 :: rest).map fun t => (t.row, t.col)).Nodup)
    (hrest : rest ≠ [])
    (hsrF : allSameRow (t0 :: rest) = false)
    (hsc : allSameCol (t0 :: rest) = true)
    (hcells : checkCells b (t0 :: rest) = Option.none)
    (hnogap : colGapScan b (t0 :: rest) t0.col = false) :
    calculateScore b (t0 :: rest) = calculateScore b q := by
  cases q with
  | nil => exact absurd hperm.eq_nil (by simp)
  | cons u0 qrest =>
  have hfacts := checkCells_none_facts b (t0 :: rest) hcells
  have hcolall := (allSameCol_spec t0 rest).mp hsc
  have hA0 : 0 ≤ minRowOf (t0 :: rest) := by
    obtain ⟨t, ht, heq⟩ := minRowOf_mem t0 rest
    rw [heq]
    exact (hfacts t ht).1.1
  have hB14 : maxRowOf (t0 :: rest) ≤ 14 := by
    obtain ⟨t, ht, heq⟩ := maxRowOf_mem t0 rest
    rw [heq]
    exact (hfacts t ht).1.2.1
  have hAB : minRowOf (t0 :: rest) < maxRowOf (t0 :: rest) := by
    cases rest with
    | nil => exact absurd rfl hrest
    | cons t1 rest' =>
      have hb0 := row_bounds t0 (t1 :: rest') t0 (List.mem_cons_self _ _)
      have hb1 := row_bounds t0 (t1 :: rest') t1
        (List.mem_cons_of_mem _ (List.mem_cons_self _ _))
      have hro : t0.row ≠ t1.row := by
        intro hc
        have hcol : t1.col = t0.col :=
          hcolall t1 (List.mem_cons_of_mem _ (List.mem_cons_self _ _))
        simp only [List.map_cons, List.nodup_cons] at hnd
        apply hnd.1
        rw [List.mem_cons]
        left
        rw [hcol, ← hc]
      omega
  have hspan : ∀ x, minRowOf (t0 :: rest) ≤ x → x ≤ maxRowOf (t0 :: rest) →
      occAt (tempBoardOf b (t0 :: rest)) x t0.col = true := by
    intro x hx1 hx2
    by_cases hplaced : ∃ t ∈ t0 :: rest, t.row = x
    · obtain ⟨t, ht, hrow⟩ := hplaced
      have hcol : t.col = t0.col := hcolall t ht
      have hp := occAt_fold_placed (t0 :: rest) b t ht
      rw [hrow, hcol] at hp
      exact hp
    · push_neg at hplaced
      by_cases hocc : (b x t0.col).tile = Option.none
      · exfalso
        have hgap : colGapScan b (t0 :: rest) t0.col = true :=
          (colGapScan_iff b t0 rest t0.col).mpr ⟨x, hx1, hx2, hplaced, hocc⟩
        rw [hnogap] at hgap
        exact Bool.noConfusion hgap
      · refine occAt_fold_mono (t0 :: rest) b x t0.col ?_
        simp only [occAt]
        exact Option.isSome_iff_ne_none.mpr hocc
  have hnew : ∀ r c, isNewCell (t0 :: rest) r c = isNewCell (u0 :: qrest) r c :=
    isNewCell_perm hperm
  have htbq : tempBoardOf b (u0 :: qrest) = tempBoardOf b (t0 :: rest) :=
    (tempBoardOf_perm b hperm hnd).symm
  have hsrFq : allSameRow (u0 :: qrest) = false := by
    rw [← allSameRow_perm hperm]
    exact hsrF
  have hu0mem : u0 ∈ t0 :: rest := hperm.mem_iff.mpr (List.mem_cons_self _ _)
  have hu0col : u0.col = t0.col := hcolall u0 hu0mem
  have hu0b := row_bounds t0 rest u0 hu0mem
  have ht0b := row_bounds t0 rest t0 (List.mem_cons_self _ _)
  have hlen2 : 2 ≤ (t0 :: rest).length := by
    cases rest with
    | nil => exact absurd rfl hrest
    | cons _ _ => simp only [List.length_cons]; omega
  have hlenq : (u0 :: qrest).length = (t0 :: rest).length := hperm.length_eq.symm
  have honep : ((t0 :: rest).length == 1) = false := by
    rw [beq_eq_false_iff_ne]
    omega
  have honeq : ((u0 :: qrest).length == 1) = false := by
    rw [beq_eq_false_iff_ne, hlenq]
    omega
  have hmain : wordAt (tempBoardOf b (t0 :: rest)) (t0 :: rest) t0.row t0.col false =
      wordAt (tempBoardOf b (t0 :: rest)) (u0 :: qrest) u0.row u0.col false := by
    rw [hu0col]
    exact wordAt_col_eq _ _ _ hnew t0.col t0.row u0.row _ _ hA0 hB14
      ht0b.1 ht0b.2 hu0b.1 hu0b.2 hspan
  have hsA : walkBack (fun x => occAt (tempBoardOf b (t0 :: rest)) x t0.col)
      15 t0.row ≤ minRowOf (t0 :: rest) :=
    walkBack_le _ _ _ t0.row hA0 ht0b.1 ht0b.2 hB14 hspan
  have hcover := run_covers_col (tempBoardOf b (t0 :: rest)) (t0 :: rest)
    t0.col t0.row (minRowOf (t0 :: rest)) (maxRowOf (t0 :: rest))
    hA0 hB14 ht0b.1 ht0b.2 hspan
  have hrun2 : 2 ≤ (mainRun (tempBoardOf b (t0 :: rest)) (t0 :: rest)
      t0.row t0.col false).length := by
    rw [mainRun_col]
    omega
  have hMform := wordAt_eq_some (tempBoardOf b (t0 :: rest)) (t0 :: rest)
    t0.row t0.col false hrun2
  obtain ⟨M, hM, hMtiles⟩ : ∃ M,
      wordAt (tempBoardOf b (t0 :: rest)) (t0 :: rest) t0.row t0.col false =
        some M ∧
      M.tiles = collectRun (tempBoardOf b (t0 :: rest)) (t0 :: rest) t0.col
        false 15
        (walkBack (fun x => occAt (tempBoardOf b (t0 :: rest)) x t0.col)
          15 t0.row) := by
    refine ⟨_, hMform, ?_⟩
    simp only [mainRun_col]
  have hlM : 2 ≤ M.tiles.length := by
    rw [hMtiles]
    rw [mainRun_col] at hrun2
    exact hrun2
  obtain ⟨e0, h0⟩ : ∃ e, M.tiles[0]? = some e :=
    ⟨_, List.getElem?_eq_getElem (by omega)⟩
  obtain ⟨eN, hN⟩ : ∃ e, M.tiles[M.tiles.length - 1]? = some e :=
    ⟨_, List.getElem?_eq_getElem (by omega)⟩
  have hkey0 := wordKey_getElem M e0 eN h0 hN
  have ha0 := collectRun_axis (tempBoardOf b (t0 :: rest)) (t0 :: rest)
    t0.col false 15 _ 0 e0 (by rw [← hMtiles]; exact h0)
  have haN := collectRun_axis (tempBoardOf b (t0 :: rest)) (t0 :: rest)
    t0.col false 15 _ (M.tiles.length - 1) eN (by rw [← hMtiles]; exact hN)
  have hMkey_comp : (wordKey M).1 ≠ (wordKey M).2.2.1 := by
    rw [hkey0]
    show e0.row ≠ eN.row
    have h1 := ha0.1
    have h2 := haN.1
    simp only [Bool.false_eq_true, if_false] at h1 h2
    omega
  have hMnotin : ∀ t ∈ t0 :: rest, ∀ w : FormedWord,
      wordAt (tempBoardOf b (t0 :: rest)) (t0 :: rest) t.row t.col true =
        some w →
      wordKey M ≠ wordKey w := by
    intro t ht w hw heq
    have k := crossKey_row _ _ _ _ w hw
    apply hMkey_comp
    rw [heq, k.1, k.2]
  have hpwrow : (t0 :: rest).Pairwise (fun t u => t.row ≠ u.row) := by
    have hnd' : (t0 :: rest).Pairwise
        (fun a c => (a.row, a.col) ≠ (c.row, c.col)) := List.pairwise_map.mp hnd
    refine hnd'.imp_of_mem ?_
    intro a c ha hc hne' hreq
    apply hne'
    rw [Prod.mk.injEq]
    exact ⟨hreq, by rw [hcolall a ha, hcolall c hc]⟩
  have hcrossnd : ((t0 :: rest).filterMap fun t =>
      wordAt (tempBoardOf b (t0 :: rest)) (t0 :: rest) t.row t.col true).Pairwise
      (fun w1 w2 => wordKey w1 ≠ wordKey w2) := by
    refine List.Pairwise.filterMap _ ?_ hpwrow
    intro a c hne w hw w' hw' heq
    rw [Option.mem_def] at hw hw'
    have k1 := crossKey_row _ _ _ _ w hw
    have k2 := crossKey_row _ _ _ _ w' hw'
    apply hne
    have hc2 : (wordKey w).1 = (wordKey w').1 := by rw [heq]
    rw [k1.1, k2.1] at hc2
    exact hc2
  have hdecomp_p : getFormedWords b (t0 :: rest) =
      M :: ((t0 :: rest).filterMap fun t =>
        wordAt (tempBoardOf b (t0 :: rest)) (t0 :: rest) t.row t.col true) := by
    simp only [getFormedWords, hsrF, honep, Bool.false_or, Bool.not_false,
      Bool.true_or, eq_self_iff_true, if_true, Bool.false_eq_true, if_false,
      List.append_nil, List.nil_append]
    rw [flatten_map_toList (fun t =>
      wordAt (tempBoardOf b (t0 :: rest)) (t0 :: rest) t.row t.col true)
      (t0 :: rest)]
    rw [hM]
    simp only [Option.toList_some, List.singleton_append]
    refine dedupByKey_eq_self _ [] ?_ (by simp)
    simp only [List.map_cons, List.nodup_cons]
    constructor
    · intro hmem
      rw [List.mem_map] at hmem
      obtain ⟨w, hw, hkeyeq⟩ := hmem
      rw [List.mem_filterMap] at hw
      obtain ⟨t, ht, hwa⟩ := hw
      exact hMnotin t ht w hwa hkeyeq.symm
    · exact List.pairwise_map.mpr hcrossnd
  have hhoriz_eq : ∀ t : PlacedTile,
      wordAt (tempBoardOf b (t0 :: rest)) (u0 :: qrest) t.row t.col true =
      wordAt (tempBoardOf b (t0 :: rest)) (t0 :: rest) t.row t.col true :=
    fun t => wordAt_congr _ _ _ _ t.row t.col true (fun _ _ => rfl)
      (fun r c => (hnew r c).symm)
  have hcrossq_eq : ((u0 :: qrest).filterMap fun t =>
      wordAt (tempBoardOf b (t0 :: rest)) (u0 :: qrest) t.row t.col true) =
      ((u0 :: qrest).filterMap fun t =>
        wordAt (tempBoardOf b (t0 :: rest)) (t0 :: rest) t.row t.col true) :=
    List.filterMap_congr (fun t _ => hhoriz_eq t)
  have hcrossq_perm : ((t0 :: rest).filterMap fun t =>
      wordAt (tempBoardOf b (t0 :: rest)) (t0 :: rest) t.row t.col true).Perm
      ((u0 :: qrest).filterMap fun t =>
        wordAt (tempBoardOf b (t0 :: rest)) (t0 :: rest) t.row t.col true) :=
    hperm.filterMap _
  have hdecomp_q : getFormedWords b (u0 :: qrest) =
      M :: ((u0 :: qrest).filterMap fun t =>
        wordAt (tempBoardOf b (t0 :: rest)) (t0 :: rest) t.row t.col true) := by
    simp only [getFormedWords, hsrFq, honeq, Bool.false_or, Bool.not_false,
      Bool.true_or, eq_self_iff_true, if_true, Bool.false_eq_true, if_false,
      List.append_nil, List.nil_append, htbq]
    rw [flatten_map_toList (fun t =>
      wordAt (tempBoardOf b (t0 :: rest)) (u0 :: qrest) t.row t.col true)
      (u0 :: qrest)]
    rw [hcrossq_eq, ← hmain, hM]
    simp only [Option.toList_some, List.singleton_append]
    refine dedupByKey_eq_self _ [] ?_ (by simp)
    simp only [List.map_cons, List.nodup_cons]
    constructor
    · intro hmem
      rw [List.mem_map] at hmem
      obtain ⟨w, hw, hkeyeq⟩ := hmem
      rw [List.mem_filterMap] at hw
      obtain ⟨t, ht, hwa⟩ := hw
      exact hMnotin t (hperm.mem_iff.mpr ht) w hwa hkeyeq.symm
    · exact ((hcrossq_perm.map wordKey).nodup_iff).mp
        (List.pairwise_map.mpr hcrossnd)
  have hsum : (((t0 :: rest).filterMap fun t =>
      wordAt (tempBoardOf b (t0 :: rest)) (t0 :: rest) t.row t.col true).map
        (scoreWord b)).sum =
      (((u0 :: qrest).filterMap fun t =>
        wordAt (tempBoardOf b (t0 :: rest)) (t0 :: rest) t.row t.col true).map
        (scoreWord b)).sum :=
    (hcrossq_perm.map (scoreWord b)).sum_eq
  simp only [calculateScore, hdecomp_p, hdecomp_q, foldl_add_map,
    List.map_cons, List.sum_cons, hlenq]
  rw [hsum]

/-- C7 (amended): for placements the validator accepts — listed at
pairwise-distinct coordinates — `calculateScore` is invariant under
permuting the client's tile list; the counterexample shows the
restriction to accepted placements is necessary. -/
theorem c7_perm_invariant (b : Board) (p q : List PlacedTile) (f : Bool)
    (hperm : p.Perm q)
    (hnd : (p.map fun t => (t.row, t.col)).Nodup)
    (hval : validatePlacement b p f = VResult.valid) :
    calculateScore b p = calculateScore b q := by
  match p, hperm, hnd, hval with
  | [], hperm, hnd, hval => exact absurd hval (by simp [validatePlacement])
  | t0 :: rest, hperm, hnd, hval =>
    by_cases hrne : rest = []
    · subst hrne
      rw [← hperm.singleton_eq]
    · have hcells := valid_checkCells b (t0 :: rest) f hval
      have hgaps := valid_gap_false b t0 rest f hval
      rcases valid_line b (t0 :: rest) f hval with hsr | hsc
      · exact score_perm_row b t0 rest q hperm hnd hrne hsr hcells
          (hgaps.1 hsr)
      · cases hsrb : allSameRow (t0 :: rest) with
        | true =>
          exact score_perm_row b t0 rest q hperm hnd hrne hsrb hcells
            (hgaps.1 hsrb)
        | false =>
          exact score_perm_col b t0 rest q hperm hnd hrne hsrb hsc hcells
            (hgaps.2 hsrb)

/-- C7 witness: the opening CAT move through the center is accepted, its
coordinates are pairwise distinct, and the reversed tile order scores the
same. -/
theorem c7_perm_invariant_witness :
    catTiles.Perm catTilesRev ∧
    (catTiles.map fun t => (t.row, t.col)).Nodup ∧
    validatePlacement createEmptyBoard catTiles true = VResult.valid ∧
    calculateScore createEmptyBoard catTiles =
      calculateScore createEmptyBoard catTilesRev :=
  ⟨by decide, by decide, by decide,
    c7_perm_invariant createEmptyBoard catTiles catTilesRev true
      (by decide) (by decide) (by decide)⟩
